import Mathlib

/-!
# Verification of the Fast-Higashi extraction-and-aggregation engine

Shallow embedding of `src/fasthigashi/Fast_process.py`: contact records are
grouped per cell, filtered by genomic distance (and optionally a blacklist),
binned into per-chromosome symmetric sparse matrices, and aggregated into a
per-chromosome, per-cell global result.

Modelling conventions:
* genomic positions and counts are integers (`ℤ`); the float32 accumulation of
  the original is modelled by exact integer arithmetic;
* a scipy `csr_matrix` of shape `(n, n)` is modelled by its dense contents, a
  list of `n` rows of `n` integers; the constructor raises on an out-of-range
  (or negative) index, modelled by `Option`;
* a pandas read failure / numpy error is modelled by `Option.none`;
* the `mtx_all_list` slots are initialised with the Python integer `0`
  (`Slot.placeholder`) and overwritten with matrices as tasks complete.
-/

namespace FastHigashi

/-- One contact record (one row of `data.txt` / a per-cell file). -/
structure Record where
  cell_id : Nat
  chrom1 : String
  pos1 : ℤ
  chrom2 : String
  pos2 : ℤ
  count : ℤ
deriving DecidableEq, Repr

/-- The dense contents of a square integer matrix, as a list of rows. -/
abbrev Mat := List (List ℤ)

/-- One slot of `mtx_all_list`: either the integer `0` the lists are
initialised with (`[[0] * cell_num for i in range(len(chrom_list))]`), or a
matrix written by the aggregation loop. -/
inductive Slot where
  | placeholder : Slot
  | mat : Mat → Slot
deriving DecidableEq, Repr

/-- A blacklist interval of the BED file (chrom, start, stop). -/
structure BLInterval where
  chrom : String
  start : ℤ
  stop : ℤ
deriving DecidableEq, Repr

/-- The configuration fields consumed by `data2mtx` / `extract_table`.
`hasCount` records whether the tab-separated input has a `count` column. -/
structure Config where
  resolution : ℤ
  chrom_list : List String
  hasCount : Bool
  input_format : Option String
  structured : Option Bool
  blacklist : Option (List BLInterval)

/-- The per-chromosome list of per-cell slots (`mtx_all_list`). -/
abbrev Grid := List (List Slot)

/-- The distance filter of `data2mtx` (line 137):
`(chrom1 == chrom2) & ((|pos2 - pos1| >= 2500) | (|pos2 - pos1| == 0))`. -/
def distanceFilter (r : Record) : Bool :=
  r.chrom1 == r.chrom2 &&
    (decide (2500 ≤ (r.pos2 - r.pos1).natAbs) || (r.pos2 - r.pos1).natAbs == 0)

/-- `np.floor(pos / res)`: floor division of a position by the resolution. -/
def binOf (res pos : ℤ) : ℤ := Int.fdiv pos res

/-- Whether an anchor `(chrom, pos)`, viewed as a point feature, overlaps some
blacklist interval. Modelled from the spec: `pybedtools.subtract` drops the
anchor iff it falls inside a blacklist interval for its chromosome (the
bedtools overlap computation itself is external to this repository). -/
def anchorBad (bl : List BLInterval) (chrom : String) (pos : ℤ) : Bool :=
  bl.any (fun iv => iv.chrom == chrom && decide (iv.start ≤ pos) && decide (pos < iv.stop))

/-- `remove_blacklist` (lines 314-344): tag each row with its position, keep
the positions whose left anchor survives subtraction, those whose right anchor
survives, intersect, and take those rows (`chromdf.iloc[good_index]`). -/
def remove_blacklist (bl : List BLInterval) (chromdf : List Record) : List Record :=
  let tagged := chromdf.enum
  let goodLeft := (tagged.filter (fun p => !anchorBad bl p.2.chrom1 p.2.pos1)).map Prod.fst
  let goodRight := (tagged.filter (fun p => !anchorBad bl p.2.chrom2 p.2.pos2)).map Prod.fst
  let good := goodLeft.filter (fun i => goodRight.contains i)
  (tagged.filter (fun p => good.contains p.1)).map Prod.snd

/-- The row predicate computed by `remove_blacklist`: both anchors survive. -/
def keepRow (bl : List BLInterval) (r : Record) : Bool :=
  !anchorBad bl r.chrom1 r.pos1 && !anchorBad bl r.chrom2 r.pos2

/-- The entry accumulated by the `csr_matrix` constructor at `(i, j)`: the sum
of `count` over the records whose bins are exactly `(i, j)`. -/
def entrySum (res : ℤ) (rows : List Record) (i j : Nat) : ℤ :=
  ((rows.filter (fun r =>
      binOf res r.pos1 == (i : ℤ) && binOf res r.pos2 == (j : ℤ))).map
    Record.count).sum

/-- The dense `n × n` matrix with entry `f i j` at `(i, j)`. -/
def mkMat (n : Nat) (f : Nat → Nat → ℤ) : Mat :=
  (List.range n).map (fun i => (List.range n).map (fun j => f i j))

/-- The entry of a dense matrix at `(i, j)` (0 outside the stored rows). -/
def entryOf (A : Mat) (i j : Nat) : ℤ := (A.getD i []).getD j 0

/-- Entrywise matrix addition. -/
def matAdd (A B : Mat) : Mat := A.zipWith (List.zipWith (· + ·)) B

/-- Matrix transposition (of a square dense matrix). -/
def matT (A : Mat) : Mat := mkMat A.length (fun i j => entryOf A j i)

/-- `csr_matrix((count, (bin1, bin2)), shape=(size, size))` (line 157): the
accumulated dense contents. -/
def rawMat (res : ℤ) (n : Nat) (rows : List Record) : Mat :=
  mkMat n (entrySum res rows)

/-- The all-zero `n × n` matrix. -/
def zeroMat (n : Nat) : Mat := mkMat n (fun _ _ => 0)

/-- Lines 157-158: build the csr matrix, then `m1 = m1 + m1.T`. The
constructor raises on a negative or out-of-range index, modelled by `none`. -/
def mkSym (res : ℤ) (n : Nat) (rows : List Record) : Option Mat :=
  if ∀ r ∈ rows, 0 ≤ binOf res r.pos1 ∧ binOf res r.pos1 < n ∧
      0 ≤ binOf res r.pos2 ∧ binOf res r.pos2 < n then
    some (matAdd (rawMat res n rows) (matT (rawMat res n rows)))
  else none

/-- The per-chromosome loop of `data2mtx` (lines 152-164): mask the rows of
the current chromosome, build the symmetrised matrix of size
`chrom_start_end[i, 1] - chrom_start_end[i, 0]`, and drop the masked rows
before the next iteration. -/
def buildLoop (res : ℤ) : List (String × Nat × Nat) → List Record → Option (List Mat)
  | [], _ => some []
  | (chrom, se) :: rest, rows =>
    match mkSym res (se.2 - se.1) (rows.filter (fun r => r.chrom1 == chrom)) with
    | none => none
    | some m =>
      match buildLoop res rest (rows.filter (fun r => !(r.chrom1 == chrom))) with
      | none => none
      | some ms => some (m :: ms)

/-- Lines 116-130 of `data2mtx`: when the input is a path (`type(file) is str`,
the file-list layout) a missing `count` column is filled with `1`; when the
input is a DataFrame the `count` column is accessed as-is and a missing column
raises a `KeyError` (line 148). -/
def resolveCounts (isFile hasCount : Bool) (tab : List Record) : Option (List Record) :=
  if isFile then
    if hasCount then some tab else some (tab.map (fun r => { r with count := 1 }))
  else
    if hasCount then some tab else none

/-- Lines 137-140: the distance filter followed by the optional blacklist
filter (`if blacklist != "" and len(data) > 0`). -/
def filteredData (tab : List Record) (blacklist : Option (List BLInterval)) : List Record :=
  match blacklist with
  | some bl =>
    if 0 < (tab.filter distanceFilter).length then
      remove_blacklist bl (tab.filter distanceFilter)
    else tab.filter distanceFilter
  | none => tab.filter distanceFilter

/-- `data2mtx` (lines 116-165): resolve the count column, apply the distance
and blacklist filters, then run the per-chromosome build loop; returns the
matrix list together with the pass-through `cell_id`. Indexing
`chrom_start_end[i]` out of range raises, modelled by `none`. -/
def data2mtx (config : Config) (isFile : Bool) (tab0 : List Record)
    (chrom_start_end : List (Nat × Nat)) (blacklist : Option (List BLInterval))
    (cell_id : Nat) : Option (List Mat × Nat) :=
  match resolveCounts isFile config.hasCount tab0 with
  | none => none
  | some tab =>
    if config.chrom_list.length ≤ chrom_start_end.length then
      match buildLoop config.resolution (config.chrom_list.zip chrom_start_end)
          (filteredData tab blacklist) with
      | none => none
      | some ms => some (ms, cell_id)
    else none

/-- Insert a number into a sorted list, keeping it sorted. -/
def insertSorted (x : Nat) : List Nat → List Nat
  | [] => [x]
  | y :: ys => if x ≤ y then x :: y :: ys else y :: insertSorted x ys

/-- Insertion sort (ascending). -/
def sortNat (l : List Nat) : List Nat := l.foldr insertSorted []

/-- `np.unique(tab['cell_id'])`: the distinct cell ids of a batch, in
ascending order. -/
def uniqueCells (tab : List Record) : List Nat :=
  sortNat (tab.map Record.cell_id).dedup

/-- The aggregation write of one completed task (lines 237-240 / 255-258):
`for i in range(len(chrom_list)): mtx_all_list[i][cell_id] = mtx_list[i]`. -/
def applyResult : Grid → Nat → List Mat → Grid
  | [], _, _ => []
  | g, _, [] => g
  | row :: g, c, m :: ms => row.set c (Slot.mat m) :: applyResult g c ms

/-- `mtx_all_list = [[0] * cell_num for i in range(len(chrom_list))]`. -/
def initGrid (nchrom ncell : Nat) : Grid :=
  (List.range nchrom).map (fun _ => List.replicate ncell Slot.placeholder)

/-- One step of the `as_completed` aggregation loop: run the task of one
submission and write its result; a task failure propagates. -/
def aggStep (config : Config) (isFile : Bool) (cse : List (Nat × Nat))
    (og : Option Grid) (s : Nat × List Record) : Option Grid :=
  og.bind (fun g =>
    (data2mtx config isFile s.2 cse config.blacklist s.1).map
      (fun mc => applyResult g mc.2 mc.1))

/-- The aggregation loop over all submissions, starting from the freshly
allocated grid. -/
def aggregate (config : Config) (isFile : Bool) (cse : List (Nat × Nat))
    (subs : List (Nat × List Record)) (g0 : Grid) : Option Grid :=
  subs.foldl (aggStep config isFile cse) (some g0)

/-- The pure fan-in loop over a list of completed task results (lines
255-258): write each `(cell_id, matrix list)` into the grid. -/
def writeResults (results : List (Nat × List Mat)) (g0 : Grid) : Grid :=
  results.foldl (fun g s => applyResult g s.1 s.2) g0

/-- `np.max(np.unique(data['cell_id']))` for a nonempty table. -/
def maxCell (tab : List Record) : Nat := (tab.map Record.cell_id).foldl max 0

/-- `data[data['cell_id'] == cell_id]`. -/
def rowsOfCell (tab : List Record) (c : Nat) : List Record :=
  tab.filter (fun r => r.cell_id == c)

/-- The whole-table submissions (lines 251-253): one task per `cell_id` in
`range(cell_num)`, present in the table or not. -/
def wholeSubs (tab : List Record) : List (Nat × List Record) :=
  (List.range (maxCell tab + 1)).map (fun c => (c, rowsOfCell tab c))

/-- The whole-table layout (lines 243-261 / 263-282): `np.max` on the empty
cell-id set raises, otherwise submit every cell id in range and aggregate. -/
def extractWhole (config : Config) (cse : List (Nat × Nat)) (tab : List Record) :
    Option Grid :=
  if tab.isEmpty then none
  else aggregate config false cse (wholeSubs tab)
    (initGrid config.chrom_list.length (maxCell tab + 1))

/-- Split a list into consecutive chunks of size `k` (`pd.read_csv(...,
chunksize=k)`); the fuel argument (instantiated with the list length, which
suffices for `k ≥ 1`) makes the recursion structural. -/
def chunksOfAux (k : Nat) : Nat → List Record → List (List Record)
  | _, [] => []
  | 0, l => [l]
  | fuel + 1, x :: xs => ((x :: xs).take k) :: chunksOfAux k fuel ((x :: xs).drop k)

/-- The chunk sequence produced by the streaming reader. -/
def chunksOf (k : Nat) (l : List Record) : List (List Record) :=
  chunksOfAux k l.length l

/-- The per-flush submissions (lines 215-219 / 228-231): one task per distinct
cell id of the flushed buffer, with exactly that cell's rows. -/
def flushSubs (buf : List Record) : List (Nat × List Record) :=
  (uniqueCells buf).map (fun c => (c, rowsOfCell buf c))

/-- The chunk loop of the structured path (lines 204-223): a chunk with a
single distinct cell id is appended to the pending buffer; otherwise the rows
of the last cell id are retained as the new buffer and everything else
(pending buffer plus the chunk minus its last cell) is flushed, one submission
per distinct cell id. An empty chunk would make `chunk.tail(1)[...][0]` raise,
modelled by `none` (never produced by the reader). -/
def processChunks : List (List Record) → List Record → List (Nat × List Record) →
    Option (List (Nat × List Record) × List Record)
  | [], buf, subs => some (subs, buf)
  | chunk :: rest, buf, subs =>
    if (uniqueCells chunk).length == 1 then
      processChunks rest (buf ++ chunk) subs
    else
      match chunk.getLast? with
      | none => none
      | some lastRow =>
        processChunks rest (chunk.filter (fun r => r.cell_id == lastRow.cell_id))
          (subs ++ flushSubs
            (buf ++ chunk.filter (fun r => !(r.cell_id == lastRow.cell_id))))

/-- All submissions of the structured path: the chunk loop followed by the
final flush of the remaining buffer (lines 226-232). -/
def chunkedSubs (k : Nat) (tab : List Record) : Option (List (Nat × List Record)) :=
  (processChunks (chunksOf k tab) [] []).map (fun sb =>
    if sb.2.isEmpty then sb.1 else sb.1 ++ flushSubs sb.2)

/-- `cell_num = max(cell_num, cell_id + 1)` accumulated over the submissions
(initially `0`). -/
def cellNumOf (subs : List (Nat × List Record)) : Nat :=
  subs.foldl (fun acc s => max acc (s.1 + 1)) 0

/-- The chunked-streaming layout (`structured=true`, lines 189-240). -/
def extractChunked (k : Nat) (config : Config) (cse : List (Nat × Nat))
    (tab : List Record) : Option Grid :=
  match chunkedSubs k tab with
  | none => none
  | some subs =>
    aggregate config false cse subs (initGrid config.chrom_list.length (cellNumOf subs))

/-- `chunksize = int(5e6)` (line 191). -/
def chunkSize : Nat := 5000000

/-- The file-list extraction grid (the aggregation part of `runV2`). -/
def extractFiles (config : Config) (cse : List (Nat × Nat))
    (files : List (List Record)) : Option Grid :=
  aggregate config true cse files.enum
    (initGrid config.chrom_list.length files.length)

/-- The observable outcome of one `extract_table` run: which matrix-build
tasks were submitted, which per-chromosome files were written, and whether the
run raised. -/
structure Outcome where
  submitted : List (Nat × List Record)
  written : List (String × List Slot)
  failed : Bool
deriving DecidableEq

/-- `"%s_sparse_adj.npy" % chrom_list[i]`. -/
def adjName (chrom : String) : String := chrom ++ "_sparse_adj.npy"

/-- The whole-table run: submissions, then per-chromosome writes on success. -/
def runWhole (config : Config) (cse : List (Nat × Nat)) (tab : List Record) : Outcome :=
  if tab.isEmpty then { submitted := [], written := [], failed := true }
  else
    match extractWhole config cse tab with
    | none => { submitted := wholeSubs tab, written := [], failed := true }
    | some g =>
      { submitted := wholeSubs tab
        written := (config.chrom_list.map adjName).zip g
        failed := false }

/-- The chunked run (`structured=true`). -/
def runChunked (config : Config) (cse : List (Nat × Nat)) (tab : List Record) : Outcome :=
  match chunkedSubs chunkSize tab with
  | none => { submitted := [], written := [], failed := true }
  | some subs =>
    match aggregate config false cse subs
        (initGrid config.chrom_list.length (cellNumOf subs)) with
    | none => { submitted := subs, written := [], failed := true }
    | some g =>
      { submitted := subs
        written := (config.chrom_list.map adjName).zip g
        failed := false }

/-- The file-list layout (`higashi_v2`, lines 286-308): one task per file,
cell id given by the position in the list. -/
def runV2 (config : Config) (cse : List (Nat × Nat))
    (files : List (List Record)) : Outcome :=
  match extractFiles config cse files with
  | none => { submitted := files.enum, written := [], failed := true }
  | some g =>
    { submitted := files.enum
      written := (config.chrom_list.map adjName).zip g
      failed := false }

/-- `extract_table` (lines 170-311): a missing `input_format` key defaults to
`'higashi_v1'` (lines 179-182); a missing `structured` key selects the plain
whole-table path; any other format tag prints and raises `EOFError` before any
submission (lines 309-311). -/
def extract_table (config : Config) (cse : List (Nat × Nat)) (tab : List Record)
    (files : List (List Record)) : Outcome :=
  let input_format := config.input_format.getD "higashi_v1"
  if input_format = "higashi_v1" then
    if config.structured.getD false then runChunked config cse tab
    else runWhole config cse tab
  else if input_format = "higashi_v2" then runV2 config cse files
  else { submitted := [], written := [], failed := true }

/-- Cell-id contiguity of a table, as used by the chunked-streaming layout:
between two rows of the same cell there is no row of another cell. -/
def Contig (tab : List Record) : Prop :=
  ∀ (c : Nat) (xs ys zs : List Record), tab = xs ++ ys ++ zs →
    (∃ r ∈ xs, r.cell_id = c) → (∃ r ∈ zs, r.cell_id = c) →
    ∀ r ∈ ys, r.cell_id = c

/-- An explicit block decomposition witnessing cell-id contiguity: the table
is a concatenation of per-cell blocks with pairwise-distinct cell ids. -/
def ContigBlocks (tab : List Record) (blocks : List (Nat × List Record)) : Prop :=
  tab = (blocks.map Prod.snd).flatten ∧
  (∀ b ∈ blocks, ∀ r ∈ b.2, r.cell_id = b.1) ∧
  (blocks.map Prod.fst).Nodup

/-! ## Concrete instances used in counterexamples and witnesses -/

/-- A minimal configuration: resolution 1, one chromosome `"c"`. -/
def cfg0 : Config :=
  { resolution := 1, chrom_list := ["c"], hasCount := true,
    input_format := none, structured := none, blacklist := none }

/-- Its chromosome layout table: one window of size 1. -/
def cse0 : List (Nat × Nat) := [(0, 1)]

/-- A single self-contact record of cell 1 (cell 0 is absent). -/
def r1 : Record :=
  { cell_id := 1, chrom1 := "c", pos1 := 0, chrom2 := "c", pos2 := 0, count := 1 }

/-- A record of cell 0, same coordinates. -/
def r0 : Record := { r1 with cell_id := 0 }

/-- The symmetrised 1×1 matrix of one self-contact of count 1. -/
def m2 : Mat := [[2]]

/-- The all-zero 1×1 matrix. -/
def mz1 : Mat := [[0]]

/-- `cfg0` for a table without a `count` column. -/
def cfg6 : Config := { cfg0 with hasCount := false }

/-- A record with a count of 77. -/
def r77 : Record := { r1 with count := 77 }

/-- Build a record from its six fields. -/
def mkRec (cell : Nat) (c1 : String) (p1 : ℤ) (c2 : String) (p2 : ℤ)
    (cnt : ℤ) : Record :=
  { cell_id := cell, chrom1 := c1, pos1 := p1, chrom2 := c2, pos2 := p2, count := cnt }

/-- A two-chromosome configuration in which chromosome `"d"` receives no
contact. -/
def cfg5 : Config := { cfg0 with chrom_list := ["c", "d"] }

/-- Its chromosome layout: windows of sizes 1 and 2. -/
def cse5 : List (Nat × Nat) := [(0, 1), (0, 2)]

/-! ## Matrix helper lemmas -/

theorem mkMat_length (n : Nat) (f : Nat → Nat → ℤ) : (mkMat n f).length = n := by
  simp [mkMat]

theorem mkMat_row_length (n : Nat) (f : Nat → Nat → ℤ) :
    ∀ row ∈ mkMat n f, row.length = n := by
  intro row hrow
  simp only [mkMat, List.mem_map] at hrow
  obtain ⟨i, -, rfl⟩ := hrow
  simp

theorem entryOf_mkMat (n : Nat) (f : Nat → Nat → ℤ) (i j : Nat)
    (hi : i < n) (hj : j < n) : entryOf (mkMat n f) i j = f i j := by
  simp [entryOf, mkMat, List.getD_eq_getElem?_getD, List.getElem?_map,
    List.getElem?_range, hi, hj]

theorem mkMat_congr {n : Nat} {f g : Nat → Nat → ℤ}
    (h : ∀ i < n, ∀ j < n, f i j = g i j) : mkMat n f = mkMat n g := by
  unfold mkMat
  refine List.map_congr_left (fun i hi => ?_)
  refine List.map_congr_left (fun j hj => ?_)
  exact h i (List.mem_range.mp hi) j (List.mem_range.mp hj)

theorem matAdd_mkMat (n : Nat) (f g : Nat → Nat → ℤ) :
    matAdd (mkMat n f) (mkMat n g) = mkMat n (fun i j => f i j + g i j) := by
  unfold matAdd mkMat
  rw [List.zipWith_map_left, List.zipWith_map_right, List.zipWith_same]
  refine List.map_congr_left (fun i _ => ?_)
  rw [List.zipWith_map_left, List.zipWith_map_right, List.zipWith_same]

theorem matT_mkMat (n : Nat) (f : Nat → Nat → ℤ) :
    matT (mkMat n f) = mkMat n (fun i j => f j i) := by
  unfold matT
  rw [mkMat_length]
  exact mkMat_congr (fun i hi j hj => entryOf_mkMat n f j i hj hi)

/-- The value of a successful `mkSym`. -/
theorem mkSym_some {res : ℤ} {n : Nat} {rows : List Record} {m : Mat}
    (h : mkSym res n rows = some m) :
    m = mkMat n (fun i j => entrySum res rows i j + entrySum res rows j i) := by
  unfold mkSym at h
  split at h
  · cases h
    unfold rawMat
    rw [matT_mkMat]
    exact matAdd_mkMat n _ _
  · cases h

theorem mkSym_shape {res : ℤ} {n : Nat} {rows : List Record} {m : Mat}
    (h : mkSym res n rows = some m) :
    m.length = n ∧ (∀ row ∈ m, row.length = n) ∧ matT m = m := by
  rw [mkSym_some h]
  refine ⟨mkMat_length _ _, mkMat_row_length _ _, ?_⟩
  rw [matT_mkMat]
  exact mkMat_congr (fun i _ j _ => add_comm _ _)

theorem buildLoop_length {res : ℤ} : ∀ (chroms : List (String × Nat × Nat))
    (rows : List Record) (ms : List Mat),
    buildLoop res chroms rows = some ms → ms.length = chroms.length := by
  intro chroms
  induction chroms with
  | nil => intro rows ms h; cases h; rfl
  | cons c rest ih =>
    intro rows ms h
    unfold buildLoop at h
    cases hm : mkSym res (c.2.2 - c.2.1) (rows.filter (fun r => r.chrom1 == c.1)) with
    | none => rw [hm] at h; cases h
    | some m =>
      rw [hm] at h
      cases hb : buildLoop res rest (rows.filter (fun r => !(r.chrom1 == c.1))) with
      | none => rw [hb] at h; cases h
      | some tl =>
        rw [hb] at h
        cases h
        simp [ih _ _ hb]

theorem buildLoop_get {res : ℤ} : ∀ (chroms : List (String × Nat × Nat))
    (rows : List Record) (ms : List Mat),
    buildLoop res chroms rows = some ms →
    ∀ i (hi : i < ms.length) (hi' : i < chroms.length),
      (ms.get ⟨i, hi⟩).length = (chroms.get ⟨i, hi'⟩).2.2 - (chroms.get ⟨i, hi'⟩).2.1 ∧
      (∀ row ∈ ms.get ⟨i, hi⟩, row.length =
        (chroms.get ⟨i, hi'⟩).2.2 - (chroms.get ⟨i, hi'⟩).2.1) ∧
      matT (ms.get ⟨i, hi⟩) = ms.get ⟨i, hi⟩ := by
  intro chroms
  induction chroms with
  | nil => intro rows ms h i hi hi'; exact absurd hi' (by simp)
  | cons c rest ih =>
    intro rows ms h i hi hi'
    unfold buildLoop at h
    cases hm : mkSym res (c.2.2 - c.2.1) (rows.filter (fun r => r.chrom1 == c.1)) with
    | none => rw [hm] at h; cases h
    | some m =>
      rw [hm] at h
      cases hb : buildLoop res rest (rows.filter (fun r => !(r.chrom1 == c.1))) with
      | none => rw [hb] at h; cases h
      | some tl =>
        rw [hb] at h
        cases h
        cases i with
        | zero => exact mkSym_shape hm
        | succ j =>
          exact ih _ _ hb j (Nat.lt_of_succ_lt_succ hi) (Nat.lt_of_succ_lt_succ hi')

/-- Unpacking a successful `data2mtx` run. -/
theorem data2mtx_some {config : Config} {isFile : Bool} {tab0 : List Record}
    {cse : List (Nat × Nat)} {bl : Option (List BLInterval)} {cid : Nat}
    {ms : List Mat} {c : Nat}
    (h : data2mtx config isFile tab0 cse bl cid = some (ms, c)) :
    c = cid ∧ config.chrom_list.length ≤ cse.length ∧
    ∃ tab, resolveCounts isFile config.hasCount tab0 = some tab ∧
      buildLoop config.resolution (config.chrom_list.zip cse)
        (filteredData tab bl) = some ms := by
  unfold data2mtx at h
  split at h
  · cases h
  next tab hr =>
    split at h
    next hl =>
      split at h
      · cases h
      next ms' hb =>
        cases h
        exact ⟨rfl, hl, tab, hr, hb⟩
    · cases h

/-! ## Aggregation-write helper lemmas -/

theorem applyResult_nil (c : Nat) : ∀ g : Grid, applyResult g c [] = g := by
  intro g
  cases g <;> rfl

theorem applyResult_comm {c₁ c₂ : Nat} (h : c₁ ≠ c₂) :
    ∀ (g : Grid) (l₁ l₂ : List Mat),
      applyResult (applyResult g c₁ l₁) c₂ l₂ =
        applyResult (applyResult g c₂ l₂) c₁ l₁ := by
  intro g
  induction g with
  | nil =>
    intro l₁ l₂
    cases l₁ <;> cases l₂ <;> rfl
  | cons row g' ih =>
    intro l₁ l₂
    cases l₁ with
    | nil => rw [applyResult_nil, applyResult_nil]
    | cons m₁ t₁ =>
      cases l₂ with
      | nil => rw [applyResult_nil, applyResult_nil]
      | cons m₂ t₂ =>
        show (row.set c₁ (Slot.mat m₁)).set c₂ (Slot.mat m₂) ::
            applyResult (applyResult g' c₁ t₁) c₂ t₂ = _
        rw [List.set_comm _ _ _ h, ih]
        rfl

theorem foldl_perm_of_comm {α β : Type _} (f : β → α → β) :
    ∀ {l₁ l₂ : List α}, l₁.Perm l₂ →
    (∀ x ∈ l₁, ∀ y ∈ l₁, ∀ z : β, f (f z x) y = f (f z y) x) →
    ∀ b : β, l₁.foldl f b = l₂.foldl f b := by
  intro l₁ l₂ hp
  induction hp with
  | nil => intro _ b; rfl
  | cons x h ih =>
    intro hc b
    simp only [List.foldl_cons]
    exact ih (fun a ha a' ha' z =>
      hc a (List.mem_cons_of_mem _ ha) a' (List.mem_cons_of_mem _ ha') z) (f b x)
  | swap x y l =>
    intro hc b
    simp only [List.foldl_cons]
    rw [hc y (by simp) x (by simp)]
  | trans h₁ h₂ ih₁ ih₂ =>
    intro hc b
    rw [ih₁ hc b, ih₂ (fun a ha a' ha' z =>
      hc a (h₁.mem_iff.mpr ha) a' (h₁.mem_iff.mpr ha') z) b]

/-- Two results with distinct pass-through cell ids write to disjoint slots. -/
theorem writeStep_comm {rs : List (Nat × List Mat)}
    (hnd : (rs.map Prod.fst).Nodup) :
    ∀ x ∈ rs, ∀ y ∈ rs, ∀ g : Grid,
      applyResult (applyResult g x.1 x.2) y.1 y.2 =
        applyResult (applyResult g y.1 y.2) x.1 x.2 := by
  intro x hx y hy g
  by_cases hxy : x = y
  · subst hxy; rfl
  · have : x.1 ≠ y.1 := fun hfst =>
      hxy (List.inj_on_of_nodup_map hnd hx hy hfst)
    exact applyResult_comm this g x.2 y.2

theorem applyResult_length (c : Nat) : ∀ (g : Grid) (ms : List Mat),
    (applyResult g c ms).length = g.length := by
  intro g
  induction g with
  | nil => intro ms; cases ms <;> rfl
  | cons row g' ih =>
    intro ms
    cases ms with
    | nil => rw [applyResult_nil]
    | cons m t =>
      show (row.set c (Slot.mat m) :: applyResult g' c t).length = _
      simp [ih]

theorem applyResult_getElem? (c : Nat) : ∀ (g : Grid) (ms : List Mat) (i : Nat),
    (applyResult g c ms)[i]? =
      match g[i]?, ms[i]? with
      | some row, some m => some (row.set c (Slot.mat m))
      | some row, none => some row
      | none, _ => none := by
  intro g
  induction g with
  | nil =>
    intro ms i
    cases ms <;> simp [applyResult]
  | cons row g' ih =>
    intro ms i
    cases ms with
    | nil =>
      rw [applyResult_nil]
      cases h : (row :: g')[i]? <;> simp
    | cons m t =>
      show (row.set c (Slot.mat m) :: applyResult g' c t)[i]? = _
      cases i with
      | zero => simp
      | succ j => simpa using ih t j

/-- Row lengths are preserved by an aggregation write. -/
theorem applyResult_row_length {c : Nat} {g : Grid} {ms : List Mat}
    {i : Nat} {row : List Slot}
    (h : (applyResult g c ms)[i]? = some row) :
    ∃ row0, g[i]? = some row0 ∧ row.length = row0.length := by
  rw [applyResult_getElem?] at h
  cases hg : g[i]? with
  | none => rw [hg] at h; cases h
  | some row0 =>
    rw [hg] at h
    cases hm : ms[i]? with
    | none =>
      rw [hm] at h
      injection h with h'
      exact ⟨row0, rfl, by rw [← h']⟩
    | some m =>
      rw [hm] at h
      injection h with h'
      refine ⟨row0, rfl, ?_⟩
      rw [← h']
      exact List.length_set row0 c _

theorem aggregate_none (config : Config) (isFile : Bool) (cse : List (Nat × Nat)) :
    ∀ subs : List (Nat × List Record),
      subs.foldl (aggStep config isFile cse) none = none := by
  intro subs
  induction subs with
  | nil => rfl
  | cons s rest ih => simpa [aggStep] using ih

/-- The matrix-list length of any successful `data2mtx`. -/
theorem data2mtx_length {config : Config} {isFile : Bool} {tab : List Record}
    {cse : List (Nat × Nat)} {bl : Option (List BLInterval)} {cid : Nat}
    {ms : List Mat} {c : Nat}
    (h : data2mtx config isFile tab cse bl cid = some (ms, c)) :
    ms.length = config.chrom_list.length := by
  obtain ⟨-, hle, tab', -, hb⟩ := data2mtx_some h
  have := buildLoop_length _ _ _ hb
  rw [List.length_zip, Nat.min_eq_left hle] at this
  exact this

/-- Unfolding one step of the aggregation loop. -/
theorem aggregate_cons {config : Config} {isFile : Bool} {cse : List (Nat × Nat)}
    {s : Nat × List Record} {subs : List (Nat × List Record)} {g0 g : Grid}
    (h : aggregate config isFile cse (s :: subs) g0 = some g) :
    ∃ ms, data2mtx config isFile s.2 cse config.blacklist s.1 = some (ms, s.1) ∧
      aggregate config isFile cse subs (applyResult g0 s.1 ms) = some g := by
  unfold aggregate at h ⊢
  rw [List.foldl_cons] at h
  cases hd : data2mtx config isFile s.2 cse config.blacklist s.1 with
  | none =>
    rw [show aggStep config isFile cse (some g0) s = none by
      simp [aggStep, hd]] at h
    rw [aggregate_none] at h
    cases h
  | some mc =>
    obtain ⟨ms, c⟩ := mc
    obtain ⟨hc, -, -⟩ := data2mtx_some hd
    subst hc
    rw [show aggStep config isFile cse (some g0) s =
        some (applyResult g0 s.1 ms) by simp [aggStep, hd]] at h
    exact ⟨ms, rfl, h⟩

theorem getD_set_self {row : List Slot} {c : Nat} {v : Slot} (h : c < row.length) :
    (row.set c v).getD c Slot.placeholder = v := by
  rw [List.getD_eq_getElem?_getD, List.getElem?_set_eq_of_lt v h]
  rfl

theorem getD_set_ne {row : List Slot} {a c : Nat} {v : Slot} (h : a ≠ c) :
    (row.set a v).getD c Slot.placeholder = row.getD c Slot.placeholder := by
  rw [List.getD_eq_getElem?_getD, List.getD_eq_getElem?_getD, List.getElem?_set_ne h]

/-- A write at column `c₀` leaves every other column unchanged. -/
theorem applyResult_col_ne {c₀ c : Nat} (h : c₀ ≠ c) (g : Grid) (ms : List Mat)
    (i : Nat) :
    ((applyResult g c₀ ms)[i]?).map (fun row => row.getD c Slot.placeholder) =
      (g[i]?).map (fun row => row.getD c Slot.placeholder) := by
  rw [applyResult_getElem?]
  cases hg : g[i]? with
  | none => rfl
  | some row0 =>
    cases hm : ms[i]? with
    | none => rfl
    | some m =>
      show some ((row0.set c₀ (Slot.mat m)).getD c Slot.placeholder) =
        some (row0.getD c Slot.placeholder)
      rw [getD_set_ne h]

/-- A write at column `c₀` puts the `i`-th matrix into row `i`. -/
theorem applyResult_col_self {g : Grid} {ms : List Mat} (c₀ : Nat) {i : Nat}
    {row0 : List Slot} (hg : g[i]? = some row0) (hi : i < ms.length) :
    (applyResult g c₀ ms)[i]? = some (row0.set c₀ (Slot.mat (ms.getD i []))) := by
  rw [applyResult_getElem?, hg, List.getElem?_eq_getElem hi]
  simp [List.getD_eq_getElem?_getD, List.getElem?_eq_getElem hi]

/-- The slot-level characterisation of a successful aggregation run starting
from a grid of `chrom_list.length` rows of `cn` slots each: every submission's
task succeeded; the grid shape is preserved; columns no submission wrote keep
their initial value; and the column of each submission holds that task's
matrices. -/
theorem aggregate_slots {config : Config} {isFile : Bool} {cse : List (Nat × Nat)}
    {cn : Nat} :
    ∀ (subs : List (Nat × List Record)) (g0 g : Grid),
    aggregate config isFile cse subs g0 = some g →
    (subs.map Prod.fst).Nodup →
    (∀ s ∈ subs, s.1 < cn) →
    g0.length = config.chrom_list.length →
    (∀ (i : Nat) (row : List Slot), g0[i]? = some row → row.length = cn) →
    (∀ s ∈ subs, ∃ ms,
      data2mtx config isFile s.2 cse config.blacklist s.1 = some (ms, s.1)) ∧
    g.length = config.chrom_list.length ∧
    (∀ (i : Nat) (row : List Slot), g[i]? = some row → row.length = cn) ∧
    (∀ c : Nat, (∀ s ∈ subs, s.1 ≠ c) → ∀ i : Nat,
      (g[i]?).map (fun row => row.getD c Slot.placeholder) =
      (g0[i]?).map (fun row => row.getD c Slot.placeholder)) ∧
    (∀ s ∈ subs, ∀ ms,
      data2mtx config isFile s.2 cse config.blacklist s.1 = some (ms, s.1) →
      ∀ (i : Nat) (row : List Slot), g[i]? = some row → i < config.chrom_list.length →
        row.getD s.1 Slot.placeholder = Slot.mat (ms.getD i [])) := by
  intro subs
  induction subs with
  | nil =>
    intro g0 g hagg hnd hlt hlen hrows
    have hg : g0 = g := by
      unfold aggregate at hagg
      exact Option.some.inj hagg
    subst hg
    exact ⟨by simp, hlen, hrows, fun c _ i => rfl, by simp⟩
  | cons s₀ rest ih =>
    intro g0 g hagg hnd hlt hlen hrows
    obtain ⟨ms₀, hd₀, hrest⟩ := aggregate_cons hagg
    have hnd' : ((s₀ :: rest).map Prod.fst).Nodup := hnd
    rw [List.map_cons, List.nodup_cons] at hnd'
    obtain ⟨hhead, htail⟩ := hnd'
    have hms₀len : ms₀.length = config.chrom_list.length := data2mtx_length hd₀
    have hlen1 : (applyResult g0 s₀.1 ms₀).length = config.chrom_list.length := by
      rw [applyResult_length]; exact hlen
    have hrows1 : ∀ (i : Nat) (row : List Slot), (applyResult g0 s₀.1 ms₀)[i]? = some row →
        row.length = cn := by
      intro i row hr
      obtain ⟨row0, hr0, hlenr⟩ := applyResult_row_length hr
      rw [hlenr]
      exact hrows i row0 hr0
    obtain ⟨ih1, ih2, ih3, ih4, ih5⟩ :=
      ih (applyResult g0 s₀.1 ms₀) g hrest htail
        (fun s hs => hlt s (List.mem_cons_of_mem _ hs)) hlen1 hrows1
    refine ⟨?_, ih2, ih3, ?_, ?_⟩
    · intro s hs
      rcases List.mem_cons.mp hs with rfl | hs'
      · exact ⟨ms₀, hd₀⟩
      · exact ih1 s hs'
    · intro c hc i
      have h1 := ih4 c (fun s hs => hc s (List.mem_cons_of_mem _ hs)) i
      rw [h1]
      exact applyResult_col_ne (hc s₀ (List.mem_cons_self _ _)) g0 ms₀ i
    · intro s hs ms hd i row hrow hi
      rcases List.mem_cons.mp hs with rfl | hs'
      · -- s = s₀: its matrices are ms₀ and its column is untouched by rest
        have hms : ms = ms₀ := by
          rw [hd₀] at hd
          exact congrArg Prod.fst (Option.some.inj hd).symm
        subst hms
        have hun : ∀ s' ∈ rest, s'.1 ≠ s.1 := by
          intro s' hs' heq
          exact hhead (heq ▸ List.mem_map_of_mem Prod.fst hs')
        have h4 := ih4 s.1 hun i
        rw [hrow] at h4
        have hg0i : ∃ row0, g0[i]? = some row0 := by
          exact ⟨_, List.getElem?_eq_getElem (by omega)⟩
        obtain ⟨row0, hg0⟩ := hg0i
        have hself := applyResult_col_self s.1 hg0 (show i < ms.length by omega)
        rw [hself] at h4
        simp only [Option.map_some'] at h4
        injection h4 with h4'
        rw [h4']
        exact getD_set_self (by rw [hrows i row0 hg0]; exact hlt s (List.mem_cons_self _ _))
      · exact ih5 s hs' ms hd i row hrow hi

theorem entrySum_nil (res : ℤ) (i j : Nat) : entrySum res [] i j = 0 := rfl

theorem mkSym_nil (res : ℤ) (n : Nat) : mkSym res n [] = some (zeroMat n) := by
  have h : mkSym res n [] =
      some (matAdd (rawMat res n []) (matT (rawMat res n []))) := by
    unfold mkSym
    rw [if_pos]
    intro r hr
    cases hr
  rw [h, mkSym_some h]
  unfold zeroMat
  exact congrArg some (mkMat_congr (fun i _ j _ => by
    rw [entrySum_nil, entrySum_nil, add_zero]))

theorem buildLoop_nil (res : ℤ) : ∀ chroms : List (String × Nat × Nat),
    buildLoop res chroms [] = some (chroms.map (fun p => zeroMat (p.2.2 - p.2.1))) := by
  intro chroms
  induction chroms with
  | nil => rfl
  | cons c rest ih =>
    obtain ⟨chrom, se⟩ := c
    unfold buildLoop
    simp only [List.filter_nil, mkSym_nil, ih, List.map_cons]

/-- `data2mtx` on a cell with no records: one all-zero matrix per chromosome,
of that chromosome's window size. -/
theorem data2mtx_nil {config : Config} {isFile : Bool} {cse : List (Nat × Nat)}
    {bl : Option (List BLInterval)} {cid : Nat} {ms : List Mat} {c : Nat}
    (h : data2mtx config isFile [] cse bl cid = some (ms, c)) :
    ms = (config.chrom_list.zip cse).map (fun p => zeroMat (p.2.2 - p.2.1)) := by
  obtain ⟨-, -, tab, hr, hb⟩ := data2mtx_some h
  have htab : tab = [] := by
    unfold resolveCounts at hr
    split at hr
    · split at hr
      · exact (Option.some.inj hr).symm
      · simp only [List.map_nil] at hr
        exact (Option.some.inj hr).symm
    · split at hr
      · exact (Option.some.inj hr).symm
      · cases hr
  subst htab
  have hfd : filteredData [] bl = [] := by
    unfold filteredData
    cases bl <;> rfl
  rw [hfd, buildLoop_nil] at hb
  exact Option.some.inj hb.symm

theorem initGrid_length (nchrom ncell : Nat) : (initGrid nchrom ncell).length = nchrom := by
  simp [initGrid]

theorem initGrid_rows {nchrom ncell : Nat} {i : Nat} {row : List Slot}
    (h : (initGrid nchrom ncell)[i]? = some row) : row.length = ncell := by
  unfold initGrid at h
  rw [List.getElem?_map] at h
  cases hr : (List.range nchrom)[i]? with
  | none => rw [hr] at h; cases h
  | some v =>
    rw [hr] at h
    injection h with h'
    rw [← h']
    exact List.length_replicate ncell _

theorem wholeSubs_map_fst (tab : List Record) :
    (wholeSubs tab).map Prod.fst = List.range (maxCell tab + 1) := by
  unfold wholeSubs
  rw [List.map_map]
  exact List.map_id _

/-- Slot-level contents of a successful aggregation whose submissions carry
the cell ids `0, …, cn-1`. -/
theorem aggregate_slots_grid {config : Config} {isFile : Bool}
    {cse : List (Nat × Nat)} {cn : Nat} {subs : List (Nat × List Record)} {g : Grid}
    (hagg : aggregate config isFile cse subs
      (initGrid config.chrom_list.length cn) = some g)
    (hfst : subs.map Prod.fst = List.range cn) :
    g.length = config.chrom_list.length ∧
    (∀ (i : Nat) (row : List Slot), g[i]? = some row → row.length = cn) ∧
    (∀ s ∈ subs, ∀ (i : Nat) (row : List Slot), g[i]? = some row →
      i < config.chrom_list.length →
      ∃ ms, data2mtx config isFile s.2 cse config.blacklist s.1 = some (ms, s.1) ∧
        row.getD s.1 Slot.placeholder = Slot.mat (ms.getD i [])) := by
  have hnd : (subs.map Prod.fst).Nodup := by
    rw [hfst]; exact List.nodup_range cn
  have hlt : ∀ s ∈ subs, s.1 < cn := by
    intro s hs
    have : s.1 ∈ List.range cn := by
      rw [← hfst]; exact List.mem_map_of_mem Prod.fst hs
    exact List.mem_range.mp this
  obtain ⟨h1, h2, h3, -, h5⟩ := aggregate_slots subs _ g hagg hnd hlt
    (initGrid_length _ _) (fun i row hr => initGrid_rows hr)
  refine ⟨h2, h3, fun s hs i row hrow hi => ?_⟩
  obtain ⟨ms, hd⟩ := h1 s hs
  exact ⟨ms, hd, h5 s hs ms hd i row hrow hi⟩

theorem extractWhole_some {config : Config} {cse : List (Nat × Nat)}
    {tab : List Record} {g : Grid} (hg : extractWhole config cse tab = some g) :
    aggregate config false cse (wholeSubs tab)
      (initGrid config.chrom_list.length (maxCell tab + 1)) = some g := by
  unfold extractWhole at hg
  split at hg
  · cases hg
  · exact hg

/-- The `i`-th all-zero matrix of an empty cell's result. -/
theorem zipZero_getD {config : Config} {cse : List (Nat × Nat)} {i : Nat}
    (hle : config.chrom_list.length ≤ cse.length)
    (hi : i < config.chrom_list.length) :
    ((config.chrom_list.zip cse).map (fun p => zeroMat (p.2.2 - p.2.1))).getD i []
      = zeroMat ((cse.getD i (0, 0)).2 - (cse.getD i (0, 0)).1) := by
  have hiz : i < (config.chrom_list.zip cse).length := by
    rw [List.length_zip]; omega
  have hic : i < cse.length := by omega
  rw [List.getD_eq_getElem?_getD, List.getElem?_map, List.getElem?_eq_getElem hiz]
  simp only [Option.map_some', Option.getD_some]
  rw [List.getElem_zip]
  rw [List.getD_eq_getElem?_getD, List.getElem?_eq_getElem hic]
  rfl

/-! ## Contiguity: a block decomposition yields the sandwich property -/

theorem blocks_contig : ∀ (blocks : List (Nat × List Record)),
    (∀ b ∈ blocks, ∀ r ∈ b.2, r.cell_id = b.1) →
    ((blocks.map Prod.fst).Nodup) →
    ∀ (c : Nat) (xs ys zs : List Record),
      (blocks.map Prod.snd).flatten = xs ++ ys ++ zs →
      (∃ r ∈ xs, r.cell_id = c) → (∃ r ∈ zs, r.cell_id = c) →
      ∀ r ∈ ys, r.cell_id = c := by
  intro blocks
  induction blocks with
  | nil =>
    intro hcell hnd c xs ys zs hj hx hz r hr
    obtain ⟨rz, hrz, -⟩ := hz
    have h0 : (xs ++ ys) ++ zs = [] := by simpa using hj.symm
    obtain ⟨-, h2⟩ := List.append_eq_nil.mp h0
    subst h2
    cases hrz
  | cons b bs ih =>
    intro hcell hnd c xs ys zs hj hx hz r hr
    rw [List.map_cons, List.flatten_cons] at hj
    rw [List.map_cons, List.nodup_cons] at hnd
    obtain ⟨hbnd, hndtl⟩ := hnd
    have hcell' : ∀ b' ∈ bs, ∀ r' ∈ b'.2, r'.cell_id = b'.1 :=
      fun b' hb' => hcell b' (List.mem_cons_of_mem _ hb')
    have hcellb : ∀ r' ∈ b.2, r'.cell_id = b.1 := hcell b (List.mem_cons_self _ _)
    -- a row of cell c in the tail blocks pins a block of id c among bs
    have htail : ∀ r' ∈ (bs.map Prod.snd).flatten, r'.cell_id = c → c ∈ bs.map Prod.fst := by
      intro r' hr' hc'
      obtain ⟨l, hl, hrl⟩ := List.mem_flatten.mp hr'
      obtain ⟨b', hb', rfl⟩ := List.mem_map.mp hl
      have := hcell' b' hb' r' hrl
      rw [← hc', this]
      exact List.mem_map_of_mem Prod.fst hb'
    have hj' : xs ++ (ys ++ zs) = b.2 ++ (List.map Prod.snd bs).flatten := by
      rw [← List.append_assoc]
      exact hj.symm
    rcases List.append_eq_append_iff.mp hj' with ⟨a', ha1, ha2⟩ | ⟨c', hc1, hc2⟩
    · -- xs is a prefix of the head block: b.2 = xs ++ a', ys ++ zs = a' ++ join bs
      obtain ⟨rx, hrx, hrxc⟩ := hx
      have hb1 : b.1 = c := by
        rw [← hrxc]
        exact (hcellb rx (ha1 ▸ List.mem_append_left a' hrx)).symm
      rcases List.append_eq_append_iff.mp ha2 with ⟨d', hd1, hd2⟩ | ⟨e, he1, he2⟩
      · -- ys sits inside the head block
        have hrb : r ∈ b.2 := by
          rw [ha1, hd1]
          exact List.mem_append_right xs (List.mem_append_left d' hr)
        rw [hcellb r hrb, hb1]
      · -- ys spills into the tail blocks: then cell c appears both in the head
        -- block and in a tail block, contradicting the block-id nodup
        obtain ⟨rz, hrz, hrzc⟩ := hz
        have hzj : rz ∈ (bs.map Prod.snd).flatten := by
          rw [he2]
          exact List.mem_append_right e hrz
        exact absurd (hb1 ▸ htail rz hzj hrzc) hbnd
    · -- the head block is a prefix of xs: xs = b.2 ++ c', join bs = c' ++ ys ++ zs
      obtain ⟨rx, hrx, hrxc⟩ := hx
      rcases List.mem_append.mp (hc1 ▸ hrx) with hrxb | hrxc'
      · -- the xs witness is in the head block: head id is c, but the zs
        -- witness lives in the tail blocks, contradiction with nodup
        have hb1 : b.1 = c := by
          rw [← hrxc]
          exact (hcellb rx hrxb).symm
        obtain ⟨rz, hrz, hrzc⟩ := hz
        have hzj : rz ∈ (bs.map Prod.snd).flatten := by
          rw [hc2]
          exact List.mem_append_right c' (List.mem_append_right ys hrz)
        exact absurd (hb1 ▸ htail rz hzj hrzc) hbnd
      · -- the xs witness is already in the tail blocks: recurse
        refine ih hcell' hndtl c c' ys zs ?_ ⟨rx, hrxc', hrxc⟩ hz r hr
        rw [hc2, List.append_assoc]

theorem contig_of_blocks {tab : List Record} {blocks : List (Nat × List Record)}
    (h : ContigBlocks tab blocks) : Contig tab := by
  obtain ⟨rfl, hcell, hnd⟩ := h
  exact fun c xs ys zs => blocks_contig blocks hcell hnd c xs ys zs

/-! ## uniqueCells -/

theorem insertSorted_perm (x : Nat) : ∀ l : List Nat, (insertSorted x l).Perm (x :: l) := by
  intro l
  induction l with
  | nil => exact List.Perm.refl _
  | cons y ys ih =>
    unfold insertSorted
    by_cases h : x ≤ y
    · rw [if_pos h]
    · rw [if_neg h]
      exact (ih.cons y).trans (List.Perm.swap x y ys)

theorem sortNat_perm : ∀ l : List Nat, (sortNat l).Perm l := by
  intro l
  induction l with
  | nil => exact List.Perm.refl _
  | cons x t ih =>
    unfold sortNat at ih ⊢
    rw [List.foldr_cons]
    exact (insertSorted_perm x _).trans (ih.cons x)

theorem mem_uniqueCells {l : List Record} {c : Nat} :
    c ∈ uniqueCells l ↔ ∃ r ∈ l, r.cell_id = c := by
  unfold uniqueCells
  rw [(sortNat_perm _).mem_iff, List.mem_dedup, List.mem_map]

theorem nodup_uniqueCells (l : List Record) : (uniqueCells l).Nodup :=
  ((sortNat_perm _).nodup_iff).mpr (List.nodup_dedup _)

theorem dedup_replicate (c : Nat) : ∀ n : Nat, (List.replicate (n + 1) c).dedup = [c] := by
  intro n
  induction n with
  | zero => simp
  | succ m ih =>
    rw [List.replicate_succ, List.dedup_cons_of_mem (by simp), ih]

theorem uniqueCells_all_eq {l : List Record} {c : Nat} (hne : l ≠ [])
    (hall : ∀ r ∈ l, r.cell_id = c) : uniqueCells l = [c] := by
  unfold uniqueCells
  have hmap : l.map Record.cell_id = List.replicate l.length c := by
    refine List.eq_replicate_iff.mpr ⟨by simp, ?_⟩
    intro b hb
    obtain ⟨r, hr, rfl⟩ := List.mem_map.mp hb
    exact hall r hr
  obtain ⟨n, hn⟩ : ∃ n, l.length = n + 1 := by
    cases l with
    | nil => exact absurd rfl hne
    | cons a t => exact ⟨t.length, by simp⟩
  rw [hmap, hn, dedup_replicate]
  rfl

theorem exists_ne_of_many_cells {ch : List Record} (lc : Nat)
    (hne : ch ≠ []) (hlen : (uniqueCells ch).length ≠ 1) :
    ∃ r ∈ ch, r.cell_id ≠ lc := by
  by_contra h
  push_neg at h
  rw [uniqueCells_all_eq hne h] at hlen
  exact hlen rfl

/-! ## Chunk splitting -/

theorem chunksOfAux_join {k : Nat} (hk : 0 < k) :
    ∀ (fuel : Nat) (l : List Record), l.length ≤ fuel →
      (chunksOfAux k fuel l).flatten = l := by
  intro fuel
  induction fuel with
  | zero =>
    intro l hl
    have hnil : l = [] := List.length_eq_zero.mp (Nat.le_zero.mp hl)
    subst hnil
    rfl
  | succ m ih =>
    intro l hl
    cases l with
    | nil => rfl
    | cons x xs =>
      show ((x :: xs).take k :: chunksOfAux k m ((x :: xs).drop k)).flatten = x :: xs
      rw [List.flatten_cons, ih _ (by
        simp only [List.length_drop, List.length_cons]
        simp only [List.length_cons] at hl
        omega)]
      exact List.take_append_drop k (x :: xs)

theorem chunksOfAux_ne_nil {k : Nat} (hk : 0 < k) :
    ∀ (fuel : Nat) (l : List Record), l.length ≤ fuel →
      ∀ ch ∈ chunksOfAux k fuel l, ch ≠ [] := by
  intro fuel
  induction fuel with
  | zero =>
    intro l hl ch hch
    have hnil : l = [] := List.length_eq_zero.mp (Nat.le_zero.mp hl)
    subst hnil
    cases hch
  | succ m ih =>
    intro l hl ch hch
    cases l with
    | nil => cases hch
    | cons x xs =>
      rcases List.mem_cons.mp hch with rfl | h
      · cases k with
        | zero => exact absurd hk (by omega)
        | succ k' => exact List.cons_ne_nil x _
      · refine ih _ ?_ ch h
        simp only [List.length_drop, List.length_cons]
        simp only [List.length_cons] at hl
        omega

theorem chunksOf_join {k : Nat} (hk : 0 < k) (l : List Record) :
    (chunksOf k l).flatten = l :=
  chunksOfAux_join hk l.length l (Nat.le_refl _)

theorem chunksOf_ne_nil {k : Nat} (hk : 0 < k) (l : List Record) :
    ∀ ch ∈ chunksOf k l, ch ≠ [] :=
  chunksOfAux_ne_nil hk l.length l (Nat.le_refl _)

/-! ## rowsOfCell and flushSubs -/

theorem rowsOfCell_append (a b : List Record) (c : Nat) :
    rowsOfCell (a ++ b) c = rowsOfCell a c ++ rowsOfCell b c :=
  List.filter_append _ _

theorem mem_rowsOfCell {l : List Record} {c : Nat} {r : Record} :
    r ∈ rowsOfCell l c ↔ r ∈ l ∧ r.cell_id = c := by
  unfold rowsOfCell
  rw [List.mem_filter]
  simp only [beq_iff_eq]

theorem rowsOfCell_eq_nil {l : List Record} {c : Nat} :
    rowsOfCell l c = [] ↔ ∀ r ∈ l, r.cell_id ≠ c := by
  unfold rowsOfCell
  rw [List.filter_eq_nil_iff]
  simp only [beq_iff_eq]

theorem rowsOfCell_ne_nil {l : List Record} {r : Record} {c : Nat}
    (hr : r ∈ l) (hc : r.cell_id = c) : rowsOfCell l c ≠ [] := by
  intro h
  exact (rowsOfCell_eq_nil.mp h) r hr hc

theorem flushSubs_map_fst (buf : List Record) :
    (flushSubs buf).map Prod.fst = uniqueCells buf := by
  unfold flushSubs
  rw [List.map_map]
  exact List.map_id _

theorem mem_flushSubs {buf : List Record} {s : Nat × List Record} :
    s ∈ flushSubs buf ↔ ∃ c ∈ uniqueCells buf, s = (c, rowsOfCell buf c) := by
  unfold flushSubs
  rw [List.mem_map]
  constructor
  · rintro ⟨c, hc, rfl⟩; exact ⟨c, hc, rfl⟩
  · rintro ⟨c, hc, rfl⟩; exact ⟨c, hc, rfl⟩

/-! ## Splitting a chunk at its trailing cell -/

/-- If the `p`-rows of `l` form a suffix (any row after a `p`-row is a
`p`-row), then `l` is its non-`p` rows followed by its `p`-rows. -/
theorem filter_partition_suffix {p : Record → Bool} :
    ∀ l : List Record,
    (∀ u r v, l = u ++ r :: v → p r = true → ∀ r' ∈ v, p r' = true) →
    l.filter (fun r => !(p r)) ++ l.filter p = l := by
  intro l
  induction l with
  | nil => intro _; rfl
  | cons x t ih =>
    intro hsuf
    cases hx : p x with
    | true =>
      have hall : ∀ r' ∈ t, p r' = true := hsuf [] x t rfl hx
      have h1 : (x :: t).filter (fun r => !(p r)) = [] := by
        refine List.filter_eq_nil_iff.mpr (fun a ha => ?_)
        rcases List.mem_cons.mp ha with rfl | ha'
        · simp [hx]
        · simp [hall a ha']
      have h2 : (x :: t).filter p = x :: t := by
        refine List.filter_eq_self.mpr (fun a ha => ?_)
        rcases List.mem_cons.mp ha with rfl | ha'
        · exact hx
        · exact hall a ha'
      rw [h1, h2]
      rfl
    | false =>
      have hsuf' : ∀ u r v, t = u ++ r :: v → p r = true → ∀ r' ∈ v, p r' = true :=
        fun u r v ht => hsuf (x :: u) r v (by rw [ht]; rfl)
      rw [List.filter_cons_of_pos (by simp [hx]), List.filter_cons_of_neg (by simp [hx])]
      rw [List.cons_append, ih hsuf']

theorem rowsOfCell_filter_comm (p : Record → Bool) (l : List Record) (c : Nat) :
    rowsOfCell (l.filter p) c = (rowsOfCell l c).filter p := by
  unfold rowsOfCell
  exact List.filter_comm _ _ _

theorem rowsOfCell_append_eq_nil {a b : List Record} {c : Nat} :
    rowsOfCell (a ++ b) c = [] ↔ rowsOfCell a c = [] ∧ rowsOfCell b c = [] := by
  rw [rowsOfCell_append, List.append_eq_nil]

theorem rowsOfCell_filter_nil {p : Record → Bool} {l : List Record} {c : Nat}
    (h : rowsOfCell l c = []) : rowsOfCell (l.filter p) c = [] := by
  rw [rowsOfCell_filter_comm, h]
  rfl

/-! ## The chunk loop of the structured path -/

theorem processChunks_cons_one {ch : List Record} {rest : List (List Record)}
    {buf : List Record} {subs : List (Nat × List Record)}
    (h : (uniqueCells ch).length = 1) :
    processChunks (ch :: rest) buf subs = processChunks rest (buf ++ ch) subs := by
  conv_lhs => unfold processChunks
  rw [if_pos (by simpa using h)]

theorem processChunks_cons_many {ch : List Record} {rest : List (List Record)}
    {buf : List Record} {subs : List (Nat × List Record)} {lr : Record}
    (h : (uniqueCells ch).length ≠ 1) (hl : ch.getLast? = some lr) :
    processChunks (ch :: rest) buf subs =
      processChunks rest (ch.filter (fun r => r.cell_id == lr.cell_id))
        (subs ++ flushSubs (buf ++ ch.filter (fun r => !(r.cell_id == lr.cell_id)))) := by
  conv_lhs => unfold processChunks
  rw [if_neg (by simpa using h), hl]

/-- The invariant of the chunk loop: under cell-id contiguity, every
submission carries exactly its cell's rows of the whole table, submitted cells
do not reappear in the pending buffer or the remaining chunks, cells are
submitted at most once, and every row already consumed belongs to some
submitted cell. -/
theorem processChunks_spec {tab : List Record} (hct : Contig tab) :
    ∀ (CL : List (List Record)) (buf F : List Record)
      (subs : List (Nat × List Record)),
    tab = F ++ (buf ++ CL.flatten) →
    (∀ ch ∈ CL, ch ≠ []) →
    (∀ s ∈ subs, s.2 = rowsOfCell tab s.1 ∧
      rowsOfCell (buf ++ CL.flatten) s.1 = [] ∧ s.2 ≠ []) →
    (subs.map Prod.fst).Nodup →
    (∀ r ∈ F, r.cell_id ∈ subs.map Prod.fst) →
    ∃ subs' buf' F',
      processChunks CL buf subs = some (subs', buf') ∧
      tab = F' ++ buf' ∧
      (∀ s ∈ subs', s.2 = rowsOfCell tab s.1 ∧
        rowsOfCell buf' s.1 = [] ∧ s.2 ≠ []) ∧
      (subs'.map Prod.fst).Nodup ∧
      (∀ r ∈ F', r.cell_id ∈ subs'.map Prod.fst) := by
  intro CL
  induction CL with
  | nil =>
    intro buf F subs htab hch hsubs hnd hcov
    refine ⟨subs, buf, F, rfl, by simpa using htab, ?_, hnd, hcov⟩
    intro s hs
    obtain ⟨h1, h2, h3⟩ := hsubs s hs
    refine ⟨h1, ?_, h3⟩
    rw [show buf ++ ([] : List (List Record)).flatten = buf by simp] at h2
    exact h2
  | cons ch rest ih =>
    intro buf F subs htab hch hsubs hnd hcov
    have hchne : ch ≠ [] := hch ch (List.mem_cons_self _ _)
    have hchrest : ∀ c ∈ rest, c ≠ [] := fun c hc => hch c (List.mem_cons_of_mem _ hc)
    by_cases hone : (uniqueCells ch).length = 1
    · -- single-cell chunk: append to the pending buffer
      rw [processChunks_cons_one hone]
      refine ih (buf ++ ch) F subs ?_ hchrest ?_ hnd hcov
      · rw [htab, List.flatten_cons]
        simp [List.append_assoc]
      · intro s hs
        obtain ⟨h1, h2, h3⟩ := hsubs s hs
        refine ⟨h1, ?_, h3⟩
        rw [List.flatten_cons] at h2
        rw [show (buf ++ ch) ++ rest.flatten = buf ++ (ch ++ rest.flatten) from by
          simp [List.append_assoc]]
        exact h2
    · -- several cells: flush everything but the trailing cell
      obtain ⟨lr, hlr⟩ : ∃ lr, ch.getLast? = some lr :=
        ⟨ch.getLast hchne, List.getLast?_eq_getLast ch hchne⟩
      rw [processChunks_cons_many hone hlr]
      have hlrch : lr ∈ ch := List.mem_of_mem_getLast? hlr
      -- the rows of the trailing cell form a suffix of the chunk
      have hsuffix : ∀ u r v, ch = u ++ r :: v →
          (r.cell_id == lr.cell_id) = true →
          ∀ r' ∈ v, (r'.cell_id == lr.cell_id) = true := by
        intro u r v hcv hp r' hr'
        have hrc : r.cell_id = lr.cell_id := beq_iff_eq.mp hp
        rw [beq_iff_eq]
        cases hv : v with
        | nil => rw [hv] at hr'; cases hr'
        | cons w ws =>
          have hvne : v ≠ [] := by rw [hv]; exact List.cons_ne_nil w ws
          have hvlast : v.getLast? = some lr := by
            have h1 : ch.getLast? = v.getLast? := by
              rw [hcv, show u ++ r :: v = (u ++ [r]) ++ v from by simp,
                List.getLast?_append_of_ne_nil _ hvne]
            rw [← h1, hlr]
          have hveq : v.dropLast ++ [lr] = v := by
            have := List.dropLast_concat_getLast hvne
            rwa [show v.getLast hvne = lr from by
              have h2 := List.getLast?_eq_getLast v hvne
              rw [hvlast] at h2
              exact (Option.some.inj h2).symm] at this
          rcases List.mem_append.mp (hveq ▸ hr') with hdl | hlast
          · -- a row strictly between two rows of the trailing cell
            refine hct lr.cell_id (F ++ (buf ++ (u ++ [r]))) v.dropLast
              ([lr] ++ rest.flatten) ?_ ⟨r, by simp, hrc⟩ ⟨lr, by simp, rfl⟩ r' hdl
            rw [htab, List.flatten_cons, hcv, ← hveq]
            simp [List.append_assoc]
          · rw [List.mem_singleton.mp hlast]
      have hsplit : ch.filter (fun r => !(r.cell_id == lr.cell_id)) ++
          ch.filter (fun r => r.cell_id == lr.cell_id) = ch :=
        filter_partition_suffix ch hsuffix
      have hlrhd : lr ∈ ch.filter (fun r => r.cell_id == lr.cell_id) :=
        List.mem_filter.mpr ⟨hlrch, by simp⟩
      -- the trailing cell has no rows in the pending buffer
      have hbuflc : rowsOfCell buf lr.cell_id = [] := by
        by_contra hne
        obtain ⟨rb, hrb⟩ := List.exists_mem_of_ne_nil _ hne
        obtain ⟨hrbbuf, hrbc⟩ := mem_rowsOfCell.mp hrb
        obtain ⟨rstar, hrstar, hrstarc⟩ :=
          exists_ne_of_many_cells lr.cell_id hchne hone
        have hrstart : rstar ∈ ch.filter (fun r => !(r.cell_id == lr.cell_id)) :=
          List.mem_filter.mpr ⟨hrstar, by simp [hrstarc]⟩
        have hall := hct lr.cell_id (F ++ buf)
          (ch.filter (fun r => !(r.cell_id == lr.cell_id)))
          ((ch.filter (fun r => r.cell_id == lr.cell_id)) ++ rest.flatten)
          (by rw [htab, List.flatten_cons, ← hsplit]; simp [List.append_assoc])
          ⟨rb, by simp [hrbbuf], hrbc⟩ ⟨lr, by simp [hlrhd], rfl⟩
        exact hrstarc (hall rstar hrstart)
      -- facts about each flushed cell
      have hflush : ∀ c, rowsOfCell (buf ++
          ch.filter (fun r => !(r.cell_id == lr.cell_id))) c ≠ [] →
          c ≠ lr.cell_id ∧
          rowsOfCell ((ch.filter (fun r => r.cell_id == lr.cell_id)) ++
            rest.flatten) c = [] ∧
          rowsOfCell F c = [] := by
        intro c hcne
        obtain ⟨r₀, hr₀⟩ := List.exists_mem_of_ne_nil _ hcne
        obtain ⟨hr₀full, hr₀c⟩ := mem_rowsOfCell.mp hr₀
        have hclc : c ≠ lr.cell_id := by
          rintro rfl
          rcases List.mem_append.mp hr₀full with hb | ht
          · exact rowsOfCell_ne_nil hb hr₀c hbuflc
          · have := (List.mem_filter.mp ht).2
            rw [hr₀c] at this
            simp at this
        have hhd : rowsOfCell (ch.filter (fun r => r.cell_id == lr.cell_id)) c = [] := by
          refine rowsOfCell_eq_nil.mpr (fun r hr hrc => ?_)
          have := beq_iff_eq.mp (List.mem_filter.mp hr).2
          exact hclc (hrc ▸ this ▸ rfl)
        have hrest : rowsOfCell rest.flatten c = [] := by
          by_contra hne2
          obtain ⟨rr, hrr⟩ := List.exists_mem_of_ne_nil _ hne2
          obtain ⟨hrrJ, hrrc⟩ := mem_rowsOfCell.mp hrr
          have hall := hct c
            (F ++ (buf ++ ch.filter (fun r => !(r.cell_id == lr.cell_id))))
            (ch.filter (fun r => r.cell_id == lr.cell_id)) rest.flatten
            (by rw [htab, List.flatten_cons, ← hsplit]; simp [List.append_assoc])
            ⟨r₀, by simpa using Or.inr hr₀full, hr₀c⟩ ⟨rr, hrrJ, hrrc⟩
          exact hclc ((hall lr hlrhd).symm)
        have hF : rowsOfCell F c = [] := by
          by_contra hne3
          obtain ⟨rf, hrf⟩ := List.exists_mem_of_ne_nil _ hne3
          obtain ⟨hrfF, hrfc⟩ := mem_rowsOfCell.mp hrf
          have hcin : c ∈ subs.map Prod.fst := hrfc ▸ hcov rf hrfF
          obtain ⟨s, hs, hsc⟩ := List.mem_map.mp hcin
          obtain ⟨-, hs2, -⟩ := hsubs s hs
          rw [hsc] at hs2
          rw [List.flatten_cons] at hs2
          obtain ⟨hb, hchr⟩ := rowsOfCell_append_eq_nil.mp hs2
          obtain ⟨hc2, -⟩ := rowsOfCell_append_eq_nil.mp hchr
          have : rowsOfCell (buf ++
              ch.filter (fun r => !(r.cell_id == lr.cell_id))) c = [] := by
            rw [rowsOfCell_append, hb, rowsOfCell_filter_nil hc2]
            rfl
          exact rowsOfCell_ne_nil hr₀full hr₀c this
        exact ⟨hclc, by rw [rowsOfCell_append, hhd, hrest]; rfl, hF⟩
      -- the full rows of each flushed cell
      have hvalue : ∀ c, rowsOfCell (buf ++
          ch.filter (fun r => !(r.cell_id == lr.cell_id))) c ≠ [] →
          rowsOfCell (buf ++ ch.filter (fun r => !(r.cell_id == lr.cell_id))) c =
            rowsOfCell tab c := by
        intro c hcne
        obtain ⟨-, hrem, hF⟩ := hflush c hcne
        obtain ⟨hhd, hrestnil⟩ := rowsOfCell_append_eq_nil.mp hrem
        have hchval : rowsOfCell ch c =
            rowsOfCell (ch.filter (fun r => !(r.cell_id == lr.cell_id))) c := by
          conv_lhs => rw [← hsplit]
          rw [rowsOfCell_append, hhd, List.append_nil]
        have htv : rowsOfCell tab c = rowsOfCell buf c ++ rowsOfCell ch c := by
          rw [htab, List.flatten_cons, rowsOfCell_append, rowsOfCell_append,
            rowsOfCell_append, hF, hrestnil]
          simp
        rw [htv, hchval, rowsOfCell_append]
      -- apply the induction hypothesis to the new state
      refine ih (ch.filter (fun r => r.cell_id == lr.cell_id))
        (F ++ (buf ++ ch.filter (fun r => !(r.cell_id == lr.cell_id))))
        (subs ++ flushSubs (buf ++ ch.filter (fun r => !(r.cell_id == lr.cell_id))))
        ?_ hchrest ?_ ?_ ?_
      · rw [htab, List.flatten_cons, ← hsplit]
        simp [List.append_assoc]
      · intro s hs
        rcases List.mem_append.mp hs with hsold | hsnew
        · obtain ⟨h1, h2, h3⟩ := hsubs s hsold
          refine ⟨h1, ?_, h3⟩
          rw [List.flatten_cons] at h2
          obtain ⟨-, hchr⟩ := rowsOfCell_append_eq_nil.mp h2
          obtain ⟨hc2, hrest⟩ := rowsOfCell_append_eq_nil.mp hchr
          rw [rowsOfCell_append, rowsOfCell_filter_nil hc2, hrest]
          rfl
        · obtain ⟨c, hc, rfl⟩ := mem_flushSubs.mp hsnew
          have hcne : rowsOfCell (buf ++
              ch.filter (fun r => !(r.cell_id == lr.cell_id))) c ≠ [] := by
            obtain ⟨r₀, hr₀f, hr₀c⟩ := mem_uniqueCells.mp hc
            exact rowsOfCell_ne_nil hr₀f hr₀c
          obtain ⟨-, hrem, -⟩ := hflush c hcne
          refine ⟨(hvalue c hcne).symm ▸ rfl, ?_, hcne⟩
          exact hrem
      · rw [List.map_append, flushSubs_map_fst]
        rw [List.nodup_append]
        refine ⟨hnd, nodup_uniqueCells _, ?_⟩
        intro c hcsub hcflush
        obtain ⟨r₀, hr₀f, hr₀c⟩ := mem_uniqueCells.mp hcflush
        obtain ⟨s, hs, hsc⟩ := List.mem_map.mp hcsub
        obtain ⟨-, hs2, -⟩ := hsubs s hs
        rw [hsc] at hs2
        rw [List.flatten_cons] at hs2
        obtain ⟨hb, hchr⟩ := rowsOfCell_append_eq_nil.mp hs2
        obtain ⟨hc2, -⟩ := rowsOfCell_append_eq_nil.mp hchr
        have hnil : rowsOfCell (buf ++
            ch.filter (fun r => !(r.cell_id == lr.cell_id))) c = [] := by
          rw [rowsOfCell_append, hb, rowsOfCell_filter_nil hc2]
          rfl
        exact rowsOfCell_ne_nil hr₀f hr₀c hnil
      · intro r hr
        rw [List.map_append, flushSubs_map_fst]
        rcases List.mem_append.mp hr with hrF | hrfull
        · exact List.mem_append_left _ (hcov r hrF)
        · exact List.mem_append_right _ (mem_uniqueCells.mpr ⟨r, hrfull, rfl⟩)

/-- The full submission list of the structured path, under contiguity: one
submission per distinct cell of the table, carrying exactly that cell's rows. -/
theorem chunkedSubs_spec (k : Nat) (hk : 0 < k) {tab : List Record}
    (hct : Contig tab) :
    ∃ S, chunkedSubs k tab = some S ∧
      (∀ s ∈ S, s.2 = rowsOfCell tab s.1 ∧ s.2 ≠ []) ∧
      (S.map Prod.fst).Nodup ∧
      (∀ r ∈ tab, r.cell_id ∈ S.map Prod.fst) := by
  obtain ⟨subs', buf', F', hpc, htab', hsubs', hnd', hcov'⟩ :=
    processChunks_spec hct (chunksOf k tab) [] [] []
      (by rw [chunksOf_join hk]; rfl)
      (chunksOf_ne_nil hk tab)
      (by intro s hs; cases hs)
      (by simp)
      (by intro r hr; cases hr)
  have hstep : chunkedSubs k tab =
      some (if buf'.isEmpty then subs' else subs' ++ flushSubs buf') := by
    unfold chunkedSubs
    rw [hpc]
    rfl
  cases hbe : buf'.isEmpty with
  | true =>
    have hbnil : buf' = [] := List.isEmpty_iff.mp hbe
    refine ⟨subs', by rw [hstep, hbe]; rfl, ?_, hnd', ?_⟩
    · intro s hs
      obtain ⟨h1, -, h3⟩ := hsubs' s hs
      exact ⟨h1, h3⟩
    · intro r hr
      rw [htab', hbnil, List.append_nil] at hr
      exact hcov' r hr
  | false =>
    refine ⟨subs' ++ flushSubs buf', by rw [hstep, hbe]; rfl, ?_, ?_, ?_⟩
    · intro s hs
      rcases List.mem_append.mp hs with hsold | hsnew
      · obtain ⟨h1, -, h3⟩ := hsubs' s hsold
        exact ⟨h1, h3⟩
      · obtain ⟨c, hc, rfl⟩ := mem_flushSubs.mp hsnew
        obtain ⟨r₀, hr₀b, hr₀c⟩ := mem_uniqueCells.mp hc
        have hFnil : rowsOfCell F' c = [] := by
          by_contra hne3
          obtain ⟨rf, hrf⟩ := List.exists_mem_of_ne_nil _ hne3
          obtain ⟨hrfF, hrfc⟩ := mem_rowsOfCell.mp hrf
          have hcin : c ∈ subs'.map Prod.fst := hrfc ▸ hcov' rf hrfF
          obtain ⟨s₁, hs₁, hs₁c⟩ := List.mem_map.mp hcin
          obtain ⟨-, hb, -⟩ := hsubs' s₁ hs₁
          rw [hs₁c] at hb
          exact rowsOfCell_ne_nil hr₀b hr₀c hb
        have hv : rowsOfCell buf' c = rowsOfCell tab c := by
          rw [htab', rowsOfCell_append, hFnil]
          rfl
        exact ⟨hv ▸ rfl, rowsOfCell_ne_nil hr₀b hr₀c⟩
    · rw [List.map_append, flushSubs_map_fst, List.nodup_append]
      refine ⟨hnd', nodup_uniqueCells _, ?_⟩
      intro c hcsub hcflush
      obtain ⟨r₀, hr₀b, hr₀c⟩ := mem_uniqueCells.mp hcflush
      obtain ⟨s₁, hs₁, hs₁c⟩ := List.mem_map.mp hcsub
      obtain ⟨-, hb, -⟩ := hsubs' s₁ hs₁
      rw [hs₁c] at hb
      exact rowsOfCell_ne_nil hr₀b hr₀c hb
    · intro r hr
      rw [List.map_append, flushSubs_map_fst]
      rw [htab'] at hr
      rcases List.mem_append.mp hr with hrF | hrb
      · exact List.mem_append_left _ (hcov' r hrF)
      · exact List.mem_append_right _ (mem_uniqueCells.mpr ⟨r, hrb, rfl⟩)

/-- Two aggregation steps with distinct cell ids commute. -/
theorem aggStep_comm {config : Config} {isFile : Bool} {cse : List (Nat × Nat)}
    {x y : Nat × List Record} (h : x.1 ≠ y.1) (og : Option Grid) :
    aggStep config isFile cse (aggStep config isFile cse og x) y =
      aggStep config isFile cse (aggStep config isFile cse og y) x := by
  cases og with
  | none => rfl
  | some g =>
    cases hdx : data2mtx config isFile x.2 cse config.blacklist x.1 with
    | none =>
      cases hdy : data2mtx config isFile y.2 cse config.blacklist y.1 with
      | none => simp [aggStep, hdx, hdy]
      | some mcy => simp [aggStep, hdx, hdy]
    | some mcx =>
      cases hdy : data2mtx config isFile y.2 cse config.blacklist y.1 with
      | none => simp [aggStep, hdx, hdy]
      | some mcy =>
        obtain ⟨msx, cx⟩ := mcx
        obtain ⟨msy, cy⟩ := mcy
        obtain ⟨hcx, -, -⟩ := data2mtx_some hdx
        obtain ⟨hcy, -, -⟩ := data2mtx_some hdy
        subst hcx
        subst hcy
        simp only [aggStep, Option.bind_some, hdx, hdy, Option.map_some']
        exact congrArg some (applyResult_comm h g msx msy)

/-- The aggregation result only depends on the multiset of submissions when
cell ids are pairwise distinct. -/
theorem aggregate_perm {config : Config} {isFile : Bool} {cse : List (Nat × Nat)}
    {S₁ S₂ : List (Nat × List Record)} (hperm : S₁.Perm S₂)
    (hnd : (S₁.map Prod.fst).Nodup) (g0 : Grid) :
    aggregate config isFile cse S₁ g0 = aggregate config isFile cse S₂ g0 := by
  unfold aggregate
  refine foldl_perm_of_comm _ hperm ?_ _
  intro x hx y hy z
  by_cases hxy : x = y
  · subst hxy; rfl
  · exact aggStep_comm (fun hf => hxy (List.inj_on_of_nodup_map hnd hx hy hf)) z

theorem le_foldl_max : ∀ (l : List Nat) (a : Nat),
    a ≤ l.foldl max a ∧ ∀ x ∈ l, x ≤ l.foldl max a := by
  intro l
  induction l with
  | nil => intro a; exact ⟨Nat.le_refl a, by simp⟩
  | cons y t ih =>
    intro a
    rw [List.foldl_cons]
    obtain ⟨h1, h2⟩ := ih (max a y)
    refine ⟨le_trans (Nat.le_max_left a y) h1, fun x hx => ?_⟩
    rcases List.mem_cons.mp hx with rfl | hx'
    · exact le_trans (Nat.le_max_right a x) h1
    · exact h2 x hx'

theorem cell_le_maxCell {tab : List Record} {r : Record} (hr : r ∈ tab) :
    r.cell_id ≤ maxCell tab :=
  (le_foldl_max (tab.map Record.cell_id) 0).2 r.cell_id
    (List.mem_map_of_mem Record.cell_id hr)

theorem foldl_max_range_succ : ∀ n : Nat, ((List.range n).map (· + 1)).foldl max 0 = n := by
  intro n
  induction n with
  | zero => rfl
  | succ m ih =>
    rw [List.range_succ, List.map_append, List.foldl_append, ih]
    show max m (m + 1) = m + 1
    omega

theorem cellNumOf_eq_of_perm {subs : List (Nat × List Record)} {n : Nat}
    (h : (subs.map Prod.fst).Perm (List.range n)) : cellNumOf subs = n := by
  unfold cellNumOf
  rw [show (fun (acc : Nat) (s : Nat × List Record) => max acc (s.1 + 1)) =
      (fun acc s => max acc ((fun t : Nat × List Record => t.1 + 1) s)) from rfl,
    ← List.foldl_map]
  have hmm : subs.map (fun t : Nat × List Record => t.1 + 1) =
      (subs.map Prod.fst).map (· + 1) := by
    rw [List.map_map]
    rfl
  rw [hmm]
  have hperm : ((subs.map Prod.fst).map (· + 1)).Perm ((List.range n).map (· + 1)) :=
    h.map _
  rw [foldl_perm_of_comm max hperm (fun x _ y _ z => by omega) 0]
  exact foldl_max_range_succ n

/-! ## Blacklist filter characterisation -/

theorem goodIdx_mem {q : Nat × Record → Bool} {l : List Record} {i : Nat} :
    (i ∈ (l.enum.filter q).map Prod.fst) ↔ ∃ r, (i, r) ∈ l.enum ∧ q (i, r) = true := by
  constructor
  · intro h
    obtain ⟨⟨i', r⟩, hm, hfst⟩ := List.mem_map.mp h
    obtain ⟨he, hq⟩ := List.mem_filter.mp hm
    cases hfst
    exact ⟨r, he, hq⟩
  · rintro ⟨r, he, hq⟩
    exact List.mem_map.mpr ⟨(i, r), List.mem_filter.mpr ⟨he, hq⟩, rfl⟩

/-- `remove_blacklist` keeps exactly the rows whose two anchors both survive. -/
theorem remove_blacklist_eq_filter (bl : List BLInterval) (l : List Record) :
    remove_blacklist bl l = l.filter (keepRow bl) := by
  simp only [remove_blacklist]
  have hcongr : ∀ p ∈ l.enum,
      ((((l.enum.filter (fun p => !anchorBad bl p.2.chrom1 p.2.pos1)).map Prod.fst).filter
        (fun i => ((l.enum.filter (fun p => !anchorBad bl p.2.chrom2 p.2.pos2)).map
          Prod.fst).contains i)).contains p.1)
      = keepRow bl p.2 := by
    rintro ⟨i, r⟩ he
    have hi : l[i]? = some r := List.mk_mem_enum_iff_getElem?.mp he
    rw [Bool.eq_iff_iff]
    rw [List.elem_iff, List.mem_filter]
    constructor
    · rintro ⟨hL, hR⟩
      obtain ⟨rL, heL, hqL⟩ := goodIdx_mem.mp hL
      obtain ⟨rR, heR, hqR⟩ := goodIdx_mem.mp (List.elem_iff.mp hR)
      have : rL = r := by
        have := List.mk_mem_enum_iff_getElem?.mp heL
        rw [hi] at this
        exact (Option.some.inj this).symm
      subst this
      have : rR = rL := by
        have := List.mk_mem_enum_iff_getElem?.mp heR
        rw [hi] at this
        exact (Option.some.inj this).symm
      subst this
      unfold keepRow
      rw [hqL, hqR]
      rfl
    · intro hk
      have hk1 : (!anchorBad bl r.chrom1 r.pos1) = true := by
        unfold keepRow at hk
        exact (Bool.and_eq_true _ _ |>.mp hk).1
      have hk2 : (!anchorBad bl r.chrom2 r.pos2) = true := by
        unfold keepRow at hk
        exact (Bool.and_eq_true _ _ |>.mp hk).2
      refine ⟨goodIdx_mem.mpr ⟨r, he, hk1⟩, ?_⟩
      exact List.elem_iff.mpr (goodIdx_mem.mpr ⟨r, he, hk2⟩)
  rw [List.filter_congr hcongr]
  have : l.filter (keepRow bl) = (l.enum.map Prod.snd).filter (keepRow bl) := by
    rw [List.enum_map_snd]
  rw [this, List.filter_map]
  rfl

/-! ## Contact-free chromosomes -/

theorem mem_of_mem_filteredData {tab : List Record} {bl : Option (List BLInterval)}
    {r : Record} (h : r ∈ filteredData tab bl) : r ∈ tab := by
  unfold filteredData at h
  split at h
  · split at h
    · rw [remove_blacklist_eq_filter] at h
      exact (List.mem_filter.mp (List.mem_filter.mp h).1).1
    · exact (List.mem_filter.mp h).1
  · exact (List.mem_filter.mp h).1

theorem resolveCounts_chrom1 {isFile hasCount : Bool} {tab0 tab : List Record}
    (h : resolveCounts isFile hasCount tab0 = some tab) :
    ∀ r ∈ tab, ∃ r0 ∈ tab0, r.chrom1 = r0.chrom1 := by
  unfold resolveCounts at h
  split at h
  · split at h
    · cases h
      exact fun r hr => ⟨r, hr, rfl⟩
    · cases h
      intro r hr
      obtain ⟨r0, hr0, rfl⟩ := List.mem_map.mp hr
      exact ⟨r0, hr0, rfl⟩
  · split at h
    · cases h
      exact fun r hr => ⟨r, hr, rfl⟩
    · cases h

/-- A chromosome none of whose contacts appear among the rows gets the
all-zero matrix of its window size. -/
theorem buildLoop_zero {res : ℤ} : ∀ (chroms : List (String × Nat × Nat))
    (rows : List Record) (ms : List Mat),
    buildLoop res chroms rows = some ms →
    ∀ i (hi : i < ms.length) (hi' : i < chroms.length),
      (∀ r ∈ rows, ¬ r.chrom1 = (chroms.get ⟨i, hi'⟩).1) →
      ms.get ⟨i, hi⟩ =
        zeroMat ((chroms.get ⟨i, hi'⟩).2.2 - (chroms.get ⟨i, hi'⟩).2.1) := by
  intro chroms
  induction chroms with
  | nil => intro rows ms h i hi hi'; exact absurd hi' (by simp)
  | cons c rest ih =>
    intro rows ms h i hi hi' hno
    unfold buildLoop at h
    cases hm : mkSym res (c.2.2 - c.2.1) (rows.filter (fun r => r.chrom1 == c.1)) with
    | none => rw [hm] at h; cases h
    | some m =>
      rw [hm] at h
      cases hb : buildLoop res rest (rows.filter (fun r => !(r.chrom1 == c.1))) with
      | none => rw [hb] at h; cases h
      | some tl =>
        rw [hb] at h
        cases h
        cases i with
        | zero =>
          have hfe : rows.filter (fun r => r.chrom1 == c.1) = [] := by
            rw [List.filter_eq_nil_iff]
            intro r hr
            simp only [beq_iff_eq]
            exact hno r hr
          rw [hfe, mkSym_nil] at hm
          exact (Option.some.inj hm).symm
        | succ j =>
          refine ih _ _ hb j (Nat.lt_of_succ_lt_succ hi) (Nat.lt_of_succ_lt_succ hi') ?_
          intro r hr
          exact hno r (List.mem_filter.mp hr).1

/-! ## Claims -/

/-- C1 counterexample: on a table whose single record belongs to cell 1
(cell-id contiguity holds trivially), the chunked-streaming layout and the
whole-table layout produce different grids: the chunked one leaves the integer
placeholder in the slot of the absent cell 0. -/
theorem layout_equiv_counterexample :
    extractChunked chunkSize cfg0 cse0 [r1] ≠ extractWhole cfg0 cse0 [r1] := by
  decide

/-- C1 amended: for every nonempty table with cell-id contiguity in which
every cell id in `[0, max cell id]` actually occurs, the chunked-streaming
layout (`structured=true`) and the whole-table layout produce bit-identical
grids. -/
theorem layout_equiv_amended (config : Config) (cse : List (Nat × Nat))
    (tab : List Record) (blocks : List (Nat × List Record))
    (hcb : ContigBlocks tab blocks) (hne : tab ≠ [])
    (hall : ∀ c < maxCell tab + 1, ∃ r ∈ tab, r.cell_id = c) :
    extractChunked chunkSize config cse tab = extractWhole config cse tab := by
  have hct : Contig tab := contig_of_blocks hcb
  obtain ⟨S, hS, hSval, hSnd, hScov⟩ :=
    chunkedSubs_spec chunkSize (by decide) hct
  have hmem : ∀ c, c ∈ S.map Prod.fst ↔ c ∈ List.range (maxCell tab + 1) := by
    intro c
    rw [List.mem_range]
    constructor
    · intro hc
      obtain ⟨s, hs, rfl⟩ := List.mem_map.mp hc
      obtain ⟨hv, hne2⟩ := hSval s hs
      obtain ⟨r, hrmem⟩ := List.exists_mem_of_ne_nil _ hne2
      rw [hv] at hrmem
      obtain ⟨hrt, hrc⟩ := mem_rowsOfCell.mp hrmem
      have := cell_le_maxCell hrt
      omega
    · intro hc
      obtain ⟨r, hrt, hrc⟩ := hall c hc
      exact hrc ▸ hScov r hrt
  have hperm : (S.map Prod.fst).Perm (List.range (maxCell tab + 1)) :=
    (List.perm_ext_iff_of_nodup hSnd (List.nodup_range _)).mpr hmem
  have hSeq : (S.map Prod.fst).map (fun c => (c, rowsOfCell tab c)) = S := by
    rw [List.map_map]
    have hcong : ∀ s ∈ S, ((fun c => (c, rowsOfCell tab c)) ∘ Prod.fst) s = id s := by
      intro s hs
      obtain ⟨hv, -⟩ := hSval s hs
      show (s.1, rowsOfCell tab s.1) = s
      rw [← hv]
    rw [List.map_congr_left hcong, List.map_id]
  have hSw : S.Perm (wholeSubs tab) := by
    rw [← hSeq]
    exact (hperm.map _)
  have hcn : cellNumOf S = maxCell tab + 1 := cellNumOf_eq_of_perm hperm
  have hL : extractChunked chunkSize config cse tab =
      aggregate config false cse S (initGrid config.chrom_list.length (cellNumOf S)) := by
    unfold extractChunked
    rw [hS]
  have hR : extractWhole config cse tab =
      aggregate config false cse (wholeSubs tab)
        (initGrid config.chrom_list.length (maxCell tab + 1)) := by
    unfold extractWhole
    rw [if_neg (by simp [List.isEmpty_iff, hne])]
  rw [hL, hR, hcn]
  exact aggregate_perm hSw hSnd _

/-- C1 amended witness: a concrete contiguous two-cell table. -/
theorem layout_equiv_amended_witness :
    ContigBlocks [r0, r1] [(0, [r0]), (1, [r1])] ∧ ([r0, r1] : List Record) ≠ [] ∧
    (∀ c < maxCell [r0, r1] + 1, ∃ r ∈ [r0, r1], r.cell_id = c) ∧
    extractChunked chunkSize cfg0 cse0 [r0, r1] = extractWhole cfg0 cse0 [r0, r1] :=
  ⟨⟨by decide, by decide, by decide⟩, by decide, by decide,
    layout_equiv_amended cfg0 cse0 [r0, r1] [(0, [r0]), (1, [r1])]
      ⟨by decide, by decide, by decide⟩ (by decide) (by decide)⟩

/-- C2 counterexample: in the chunked-streaming layout, a table whose only
record belongs to cell 1 leaves the integer `0` placeholder — not a matrix —
in the slot of the absent cell 0, while the whole-table layout fills both
slots with matrices. -/
theorem absent_cell_counterexample :
    extractChunked chunkSize cfg0 cse0 [r1] =
      some [[Slot.placeholder, Slot.mat m2]] ∧
    extractWhole cfg0 cse0 [r1] = some [[Slot.mat mz1, Slot.mat m2]] :=
  ⟨by decide, by decide⟩

/-- C2 amended: in the whole-table and file-list layouts, every cell id in
`[0, cell_count)` gets a matrix entry in every chromosome's output row, and a
cell with no records gets the all-zero matrix of the chromosome's window size.
(In the chunked-streaming layout, absent cell ids keep the integer `0`
placeholder — the counterexample.) -/
theorem absent_cell_amended :
    (∀ (config : Config) (cse : List (Nat × Nat)) (tab : List Record) (g : Grid),
      extractWhole config cse tab = some g →
      g.length = config.chrom_list.length ∧
      (∀ (i : Nat) (row : List Slot), g[i]? = some row →
        row.length = maxCell tab + 1) ∧
      (∀ (i : Nat) (row : List Slot), g[i]? = some row →
        i < config.chrom_list.length → ∀ c < maxCell tab + 1,
        (∃ m, row.getD c Slot.placeholder = Slot.mat m) ∧
        (rowsOfCell tab c = [] →
          row.getD c Slot.placeholder =
            Slot.mat (zeroMat ((cse.getD i (0, 0)).2 - (cse.getD i (0, 0)).1))))) ∧
    (∀ (config : Config) (cse : List (Nat × Nat)) (files : List (List Record))
      (g : Grid),
      extractFiles config cse files = some g →
      g.length = config.chrom_list.length ∧
      (∀ (i : Nat) (row : List Slot), g[i]? = some row →
        row.length = files.length) ∧
      (∀ (i : Nat) (row : List Slot), g[i]? = some row →
        i < config.chrom_list.length → ∀ c < files.length,
        (∃ m, row.getD c Slot.placeholder = Slot.mat m) ∧
        (files[c]? = some [] →
          row.getD c Slot.placeholder =
            Slot.mat (zeroMat ((cse.getD i (0, 0)).2 - (cse.getD i (0, 0)).1))))) := by
  constructor
  · intro config cse tab g hg
    obtain ⟨h1, h2, h3⟩ :=
      aggregate_slots_grid (extractWhole_some hg) (wholeSubs_map_fst tab)
    refine ⟨h1, h2, fun i row hrow hi c hc => ?_⟩
    have hsub : (c, rowsOfCell tab c) ∈ wholeSubs tab :=
      List.mem_map_of_mem _ (List.mem_range.mpr hc)
    obtain ⟨ms, hd, hslot⟩ := h3 _ hsub i row hrow hi
    refine ⟨⟨ms.getD i [], hslot⟩, fun hempty => ?_⟩
    rw [hempty] at hd
    have hms := data2mtx_nil hd
    obtain ⟨-, hle, -⟩ := data2mtx_some hd
    rw [hslot, hms, zipZero_getD hle hi]
  · intro config cse files g hg
    obtain ⟨h1, h2, h3⟩ :=
      aggregate_slots_grid hg (List.enum_map_fst files)
    refine ⟨h1, h2, fun i row hrow hi c hc => ?_⟩
    have hsub : (c, files[c]) ∈ files.enum :=
      List.mk_mem_enum_iff_getElem?.mpr (List.getElem?_eq_getElem hc)
    obtain ⟨ms, hd, hslot⟩ := h3 _ hsub i row hrow hi
    refine ⟨⟨ms.getD i [], hslot⟩, fun hempty => ?_⟩
    have hfc : files[c] = [] := by
      rw [List.getElem?_eq_getElem hc] at hempty
      exact Option.some.inj hempty
    rw [hfc] at hd
    have hms := data2mtx_nil hd
    obtain ⟨-, hle, -⟩ := data2mtx_some hd
    rw [hslot, hms, zipZero_getD hle hi]

/-- C2 amended witness: the whole-table conclusion at a concrete input. -/
theorem absent_cell_amended_witness :
    extractWhole cfg0 cse0 [r1] = some [[Slot.mat mz1, Slot.mat m2]] ∧
    (([[Slot.mat mz1, Slot.mat m2]] : Grid).length = cfg0.chrom_list.length ∧
      (∀ (i : Nat) (row : List Slot),
        ([[Slot.mat mz1, Slot.mat m2]] : Grid)[i]? = some row →
        row.length = maxCell [r1] + 1) ∧
      (∀ (i : Nat) (row : List Slot),
        ([[Slot.mat mz1, Slot.mat m2]] : Grid)[i]? = some row →
        i < cfg0.chrom_list.length → ∀ c < maxCell [r1] + 1,
        (∃ m, row.getD c Slot.placeholder = Slot.mat m) ∧
        (rowsOfCell [r1] c = [] →
          row.getD c Slot.placeholder =
            Slot.mat (zeroMat ((cse0.getD i (0, 0)).2 - (cse0.getD i (0, 0)).1))))) :=
  ⟨by decide, absent_cell_amended.1 cfg0 cse0 [r1] _ (by decide)⟩

/-- C3: a record passes the distance filter iff `chrom1 == chrom2` and
`|pos2 - pos1| ≥ 2500` or `|pos2 - pos1| == 0`; at the boundary, distance 2499
is dropped, 2500 is kept, and a self-contact (distance 0) is kept. -/
theorem distance_filter_spec :
    (∀ r : Record, distanceFilter r = true ↔
      (r.chrom1 = r.chrom2 ∧
        (2500 ≤ (r.pos2 - r.pos1).natAbs ∨ (r.pos2 - r.pos1).natAbs = 0))) ∧
    distanceFilter (mkRec 0 "a" 0 "a" 2499 1) = false ∧
    distanceFilter (mkRec 0 "a" 0 "a" 2500 1) = true ∧
    distanceFilter (mkRec 0 "a" 7 "a" 7 1) = true := by
  refine ⟨fun r => ?_, by decide, by decide, by decide⟩
  unfold distanceFilter
  simp [Bool.and_eq_true, Bool.or_eq_true, beq_iff_eq, decide_eq_true_iff]

/-- C4: a successful `mkSym` returns `M + Mᵀ` where `M` accumulates the counts
at `(bin1, bin2)`; hence a single contact at bins `(i, j)` with `i ≠ j`
contributes its count at both `(i, j)` and `(j, i)`, and a single self-contact
at `(i, i)` contributes twice its count. -/
theorem mkSym_accumulates {res : ℤ} {n : Nat} {rows : List Record} {A : Mat}
    (h : mkSym res n rows = some A) :
    (∀ i j, i < n → j < n →
      entryOf A i j = entrySum res rows i j + entrySum res rows j i) ∧
    (∀ r : Record, rows = [r] → ∀ i j, i < n → j < n →
      binOf res r.pos1 = (i : ℤ) → binOf res r.pos2 = (j : ℤ) →
      (i ≠ j → entryOf A i j = r.count ∧ entryOf A j i = r.count) ∧
      (i = j → entryOf A i i = 2 * r.count)) := by
  rw [mkSym_some h]
  have hbase : ∀ i j, i < n → j < n →
      entryOf (mkMat n (fun i j => entrySum res rows i j + entrySum res rows j i)) i j =
        entrySum res rows i j + entrySum res rows j i :=
    fun i j hi hj => entryOf_mkMat n _ i j hi hj
  refine ⟨hbase, ?_⟩
  intro r hr i j hi hj h1 h2
  have hsum : ∀ a b : Nat, entrySum res rows a b =
      if binOf res r.pos1 = (a : ℤ) ∧ binOf res r.pos2 = (b : ℤ)
      then r.count else 0 := by
    intro a b
    subst hr
    unfold entrySum
    by_cases hab : binOf res r.pos1 = (a : ℤ) ∧ binOf res r.pos2 = (b : ℤ)
    · rw [if_pos hab]
      simp [List.filter, hab.1, hab.2]
    · rw [if_neg hab]
      have hnil : (List.filter (fun r' =>
          binOf res r'.pos1 == (a : ℤ) && binOf res r'.pos2 == (b : ℤ)) [r]) = [] := by
        refine List.filter_eq_nil_iff.mpr (fun x hx => ?_)
        simp only [List.mem_singleton] at hx
        subst hx
        simp only [Bool.and_eq_true, beq_iff_eq]
        exact fun hcon => hab hcon
      rw [hnil]
      rfl
  constructor
  · intro hij
    have hji : ¬(binOf res r.pos1 = (j : ℤ) ∧ binOf res r.pos2 = (i : ℤ)) := by
      rintro ⟨ha, hb⟩
      exact hij (by omega)
    have e1 : entrySum res rows i j = r.count := by
      rw [hsum i j, if_pos ⟨h1, h2⟩]
    have e2 : entrySum res rows j i = 0 := by
      rw [hsum j i, if_neg hji]
    constructor
    · rw [hbase i j hi hj, e1, e2, add_zero]
    · rw [hbase j i hj hi, e1, e2, zero_add]
  · intro hij
    subst hij
    have e1 : entrySum res rows i i = r.count := by
      rw [hsum i i, if_pos ⟨h1, h2⟩]
    rw [hbase i i hi hi, e1]
    ring

/-- C4 witness: one self-contact of count 1 in a 1-bin window yields the
matrix with doubled entry 2. -/
theorem mkSym_accumulates_witness :
    mkSym 1 1 [r1] = some m2 ∧
    ((∀ i j : Nat, i < 1 → j < 1 →
      entryOf m2 i j = entrySum 1 [r1] i j + entrySum 1 [r1] j i) ∧
    (∀ r : Record, [r1] = [r] → ∀ i j : Nat, i < 1 → j < 1 →
      binOf 1 r.pos1 = (i : ℤ) → binOf 1 r.pos2 = (j : ℤ) →
      (i ≠ j → entryOf m2 i j = r.count ∧ entryOf m2 j i = r.count) ∧
      (i = j → entryOf m2 i i = 2 * r.count))) :=
  ⟨by decide, mkSym_accumulates (by decide)⟩

/-- C5: a successful `data2mtx` returns one matrix per configured chromosome,
in order; each is square of dimension `end_bin - start_bin` of that
chromosome's window and is symmetric; a chromosome in which no contact of the
cell falls gets the all-zero matrix of its window size. -/
theorem data2mtx_result_guarantee {config : Config} {isFile : Bool}
    {tab : List Record} {cse : List (Nat × Nat)} {bl : Option (List BLInterval)}
    {cid : Nat} {ms : List Mat} {c : Nat}
    (h : data2mtx config isFile tab cse bl cid = some (ms, c)) :
    ms.length = config.chrom_list.length ∧
    ∀ i (hi : i < ms.length),
      (ms.get ⟨i, hi⟩).length = (cse.getD i (0, 0)).2 - (cse.getD i (0, 0)).1 ∧
      (∀ row ∈ ms.get ⟨i, hi⟩,
        row.length = (cse.getD i (0, 0)).2 - (cse.getD i (0, 0)).1) ∧
      matT (ms.get ⟨i, hi⟩) = ms.get ⟨i, hi⟩ ∧
      ((∀ r ∈ tab, ¬ r.chrom1 = config.chrom_list.getD i "") →
        ms.get ⟨i, hi⟩ =
          zeroMat ((cse.getD i (0, 0)).2 - (cse.getD i (0, 0)).1)) := by
  obtain ⟨-, hle, tab', hr, hb⟩ := data2mtx_some h
  have hzlen : (config.chrom_list.zip cse).length = config.chrom_list.length := by
    simp [List.length_zip, Nat.min_eq_left hle]
  have hlen := buildLoop_length _ _ _ hb
  rw [hzlen] at hlen
  refine ⟨hlen, fun i hi => ?_⟩
  have hi' : i < (config.chrom_list.zip cse).length := by omega
  have hcse : i < cse.length := by
    have := @List.length_zip _ _ config.chrom_list cse
    omega
  have hchl : i < config.chrom_list.length := by omega
  obtain ⟨h1, h2, h3⟩ := buildLoop_get _ _ _ hb i hi hi'
  have hgz : (config.chrom_list.zip cse).get ⟨i, hi'⟩ =
      (config.chrom_list.get ⟨i, hchl⟩, cse.get ⟨i, hcse⟩) := by
    simp [List.getElem_zip]
  rw [hgz] at h1 h2
  have hgd : cse.getD i (0, 0) = cse.get ⟨i, hcse⟩ := by
    simp [List.getD_eq_getElem?_getD, List.getElem?_eq_getElem hcse]
  have hgetD : config.chrom_list.getD i "" = config.chrom_list.get ⟨i, hchl⟩ := by
    simp [List.getD_eq_getElem?_getD, List.getElem?_eq_getElem hchl]
  rw [hgd]
  refine ⟨h1, h2, h3, fun hno => ?_⟩
  have hnone : ∀ r ∈ filteredData tab' bl,
      ¬ r.chrom1 = ((config.chrom_list.zip cse).get ⟨i, hi'⟩).1 := by
    intro r hrf
    obtain ⟨r0, hr0, hre⟩ := resolveCounts_chrom1 hr r (mem_of_mem_filteredData hrf)
    rw [hgz, hre]
    intro hc
    exact hno r0 hr0 (hc.trans hgetD.symm)
  have hz := buildLoop_zero _ _ _ hb i hi hi' hnone
  rw [hgz] at hz
  exact hz

/-- C5 witness: a concrete run on a two-chromosome configuration in which the
second chromosome has no contact and therefore yields the all-zero matrix of
its window size. -/
theorem data2mtx_result_guarantee_witness :
    data2mtx cfg5 false [r1] cse5 none 1 = some ([m2, zeroMat 2], 1) ∧
    (∀ r ∈ [r1], ¬ r.chrom1 = cfg5.chrom_list.getD 1 "") ∧
    ([m2, zeroMat 2].length = cfg5.chrom_list.length ∧
      ∀ i (hi : i < [m2, zeroMat 2].length),
        ([m2, zeroMat 2].get ⟨i, hi⟩).length =
          (cse5.getD i (0, 0)).2 - (cse5.getD i (0, 0)).1 ∧
        (∀ row ∈ [m2, zeroMat 2].get ⟨i, hi⟩,
          row.length = (cse5.getD i (0, 0)).2 - (cse5.getD i (0, 0)).1) ∧
        matT ([m2, zeroMat 2].get ⟨i, hi⟩) = [m2, zeroMat 2].get ⟨i, hi⟩ ∧
        ((∀ r ∈ [r1], ¬ r.chrom1 = cfg5.chrom_list.getD i "") →
          [m2, zeroMat 2].get ⟨i, hi⟩ =
            zeroMat ((cse5.getD i (0, 0)).2 - (cse5.getD i (0, 0)).1))) :=
  ⟨by decide, by decide,
    @data2mtx_result_guarantee cfg5 false [r1] cse5 none 1 [m2, zeroMat 2] 1 (by decide)⟩

/-- C6 counterexample: on a one-record whole-table input without a `count`
column the run fails (the DataFrame `count` access raises), whereas the same
input with counts set to 1 succeeds: counts are not defaulted to 1 in the
whole-table layout. -/
theorem count_default_counterexample :
    extractWhole cfg6 cse0 [r1] = none ∧
    extractWhole cfg0 cse0 [r1] ≠ none :=
  ⟨by decide, by decide⟩

/-- C6 amended: in the file-list layout a missing `count` column defaults
every count to 1; in the whole-table/chunked layouts (DataFrame input) a
missing `count` column makes `data2mtx` fail. -/
theorem count_default_amended (config : Config) (h : config.hasCount = false)
    (tab : List Record) (cse : List (Nat × Nat)) (bl : Option (List BLInterval))
    (cid : Nat) :
    data2mtx config true tab cse bl cid =
      data2mtx { config with hasCount := true } true
        (tab.map (fun r => { r with count := 1 })) cse bl cid ∧
    data2mtx config false tab cse bl cid = none := by
  constructor
  · unfold data2mtx resolveCounts
    rw [h]
    rfl
  · unfold data2mtx resolveCounts
    rw [h]
    rfl

/-- C6 amended witness. -/
theorem count_default_amended_witness :
    cfg6.hasCount = false ∧
    (data2mtx cfg6 true [r77] cse0 none 1 =
      data2mtx { cfg6 with hasCount := true } true
        ([r77].map (fun r => { r with count := 1 })) cse0 none 1 ∧
    data2mtx cfg6 false [r77] cse0 none 1 = none) :=
  ⟨rfl, count_default_amended cfg6 rfl [r77] cse0 none 1⟩

/-- C7: for any finite list of completed task results in which each cell id
in `[0, cell_num)` appears exactly once, the aggregation loop writing each
`(cell_id, matrix list)` into `mtx_all_list[i][cell_id]` yields the same final
grid under every permutation of the completion order. -/
theorem aggregation_order_independent (nchrom cn : Nat)
    (rs₁ rs₂ : List (Nat × List Mat))
    (hperm : rs₁.Perm rs₂)
    (hcells : (rs₁.map Prod.fst).Perm (List.range cn)) :
    writeResults rs₁ (initGrid nchrom cn) = writeResults rs₂ (initGrid nchrom cn) := by
  have hnd : (rs₁.map Prod.fst).Nodup :=
    hcells.nodup_iff.mpr (List.nodup_range cn)
  exact foldl_perm_of_comm _ hperm
    (fun x hx y hy z => writeStep_comm hnd x hx y hy z) _

/-- C7 witness: two completion orders of the same two results. -/
theorem aggregation_order_independent_witness :
    ([(0, [m2]), (1, [mz1])] : List (Nat × List Mat)).Perm [(1, [mz1]), (0, [m2])] ∧
    (([(0, [m2]), (1, [mz1])] : List (Nat × List Mat)).map Prod.fst).Perm (List.range 2) ∧
    writeResults [(0, [m2]), (1, [mz1])] (initGrid 1 2) =
      writeResults [(1, [mz1]), (0, [m2])] (initGrid 1 2) :=
  ⟨by decide, by decide,
    aggregation_order_independent 1 2 [(0, [m2]), (1, [mz1])] [(1, [mz1]), (0, [m2])]
      (by decide) (by decide)⟩

/-- C8: applying the blacklist filter twice with the same blacklist yields the
same record subset as applying it once: the filter keeps exactly the rows both
of whose anchors survive the subtraction, so every surviving row survives a
second application. -/
theorem blacklist_idempotent (bl : List BLInterval) (batch : List Record) :
    remove_blacklist bl (remove_blacklist bl batch) = remove_blacklist bl batch := by
  rw [remove_blacklist_eq_filter, remove_blacklist_eq_filter]
  refine List.filter_eq_self.mpr (fun r hr => ?_)
  exact (List.mem_filter.mp hr).2

/-- C9: an unrecognized input-format tag makes `extract_table` fail without
submitting any matrix-build task and without writing any output file. -/
theorem invalid_format_fatal (config : Config) (cse : List (Nat × Nat))
    (tab : List Record) (files : List (List Record)) (fmt : String)
    (hf : config.input_format = some fmt)
    (h1 : fmt ≠ "higashi_v1") (h2 : fmt ≠ "higashi_v2") :
    extract_table config cse tab files =
      { submitted := [], written := [], failed := true } := by
  unfold extract_table
  rw [hf]
  simp [Option.getD, h1, h2]

/-- C9 witness. -/
theorem invalid_format_fatal_witness :
    ({ cfg0 with input_format := some "bogus" } : Config).input_format = some "bogus" ∧
    ("bogus" : String) ≠ "higashi_v1" ∧ ("bogus" : String) ≠ "higashi_v2" ∧
    extract_table { cfg0 with input_format := some "bogus" } cse0 [r1] [] =
      { submitted := [], written := [], failed := true } :=
  ⟨rfl, by decide, by decide,
    invalid_format_fatal { cfg0 with input_format := some "bogus" } cse0 [r1] []
      "bogus" rfl (by decide) (by decide)⟩

/-- C10: omitting the `input_format` key behaves exactly like giving
`'higashi_v1'`; a missing tag is not a configuration error. -/
theorem missing_format_defaults (config : Config) (cse : List (Nat × Nat))
    (tab : List Record) (files : List (List Record)) :
    extract_table { config with input_format := none } cse tab files =
      extract_table { config with input_format := some "higashi_v1" } cse tab files := by
  unfold extract_table
  rfl

end FastHigashi
